import Mathlib

/-!
Verification of the `argp` command-line parsing engine.

This file gives a shallow embedding of the runtime parsing engine of the
`argp` crate (files `src/parser.rs`, `src/error.rs`, `src/help.rs`) and proves
properties of that embedding.

Modelling conventions:
* Rust `&OsStr` argument tokens are modelled as Lean `String`s.  The engine
  only ever compares tokens for equality, inspects their characters, or stores
  them verbatim, and all behaviour relevant here concerns valid UTF-8 (in fact
  ASCII) tokens, for which `next_arg_os.to_str().unwrap_or("")` is the
  identity.
* Mutation of slots (`&mut` in Rust) is modelled by explicit state passing:
  each function returns the updated structure.
* The generic value type `T` of `ParseValueSlotTy<_, T>` is modelled as
  `String` (the parsed value); the injected conversion function
  `fn(&str, &OsStr) -> Result<T, String>` becomes a Lean function
  `String → String → Except String String`.
* Rust `Vec::push` is `· ++ [·]`, `saturating_add(1)` on an integer type with
  maximal value `max` is `min (· + 1) max`.
-/

namespace Argp

/-- Error type, from `src/error.rs` (`enum Error`).  The payload of
`MissingRequirements` is introduced later; here it is represented by the same
structure used by `err_on_any`. -/
inductive MissingRequirementsData : Type where
  | mk : (options : List String) → (subcommands : Option (List String)) →
      (positional_args : List String) → MissingRequirementsData
deriving DecidableEq, Repr

def MissingRequirementsData.options : MissingRequirementsData → List String
  | .mk o _ _ => o

def MissingRequirementsData.subcommands :
    MissingRequirementsData → Option (List String)
  | .mk _ s _ => s

def MissingRequirementsData.positional_args : MissingRequirementsData → List String
  | .mk _ _ p => p

inductive Error : Type where
  | DuplicateOption : String → Error
  | MissingArgValue : String → Error
  | MissingRequirements : MissingRequirementsData → Error
  | OptionsAfterHelp : Error
  | ParseArgument : (arg : String) → (value : String) → (msg : String) → Error
  | UnknownArgument : String → Error
  | Other : String → Error
deriving DecidableEq, Repr

/-- `EarlyExit` from `src/lib.rs`: either a structured error or a `Help`
outcome.  The `Help` payload in Rust is a `Help` value holding the joined
command name, the static help metadata and the collected global options; the
claims below only concern which outcome is produced, so the payload is
modelled by the joined command name (`cmd_name.join(" ")`). -/
inductive EarlyExit : Type where
  | err : Error → EarlyExit
  | help : String → EarlyExit
deriving DecidableEq, Repr

/-- The `Flag` trait implementations from `src/parser.rs`:
`bool`, `Option<bool>`, and the integer types (via `impl_flag_for_integers`).
An integer flag of a type whose maximal value is `max` is modelled as
`counter max v` with `v : Nat` (all the integer impls start from 0 and only
ever `saturating_add(1)`, so values stay in `[0, max]`). -/
inductive FlagVal : Type where
  | bool : Bool → FlagVal
  | optionBool : Option Bool → FlagVal
  | counter : (max : Nat) → (v : Nat) → FlagVal
deriving DecidableEq, Repr

/-- `Flag::set_flag` for each impl: `*self = true`, `*self = Some(true)`,
`*self = self.saturating_add(1)`. -/
def FlagVal.set_flag : FlagVal → FlagVal
  | .bool _ => .bool true
  | .optionBool _ => .optionBool (some true)
  | .counter max v => .counter max (min (v + 1) max)

/-- `Flag::default` for each impl: `false`, `None`, `0`. -/
def FlagVal.defaultBool : FlagVal := .bool false

def FlagVal.defaultOptionBool : FlagVal := .optionBool none

def FlagVal.defaultCounter (max : Nat) : FlagVal := .counter max 0

/-- `ParseValueSlotTy<Option<T>, T>`: the slot for all non-repeating
value-taking arguments. -/
structure ValueSlotOne : Type where
  slot : Option String
  parse_func : String → String → Except String String

/-- `ParseValueSlotTy<Vec<T>, T>`: the slot for repeating arguments. -/
structure ValueSlotMany : Type where
  slot : List String
  parse_func : String → String → Except String String

/-- `<ParseValueSlotTy<Option<T>, T> as ParseValueSlot>::fill_slot`. -/
def ValueSlotOne.fill_slot (s : ValueSlotOne) (arg value : String) :
    Except Error ValueSlotOne :=
  if s.slot.isSome then
    .error (.DuplicateOption arg)
  else
    match s.parse_func arg value with
    | .error e => .error (.ParseArgument arg value e)
    | .ok parsed => .ok { s with slot := some parsed }

/-- `<ParseValueSlotTy<Vec<T>, T> as ParseValueSlot>::fill_slot`. -/
def ValueSlotMany.fill_slot (s : ValueSlotMany) (arg value : String) :
    Except Error ValueSlotMany :=
  match s.parse_func arg value with
  | .error e => .error (.ParseArgument arg value e)
  | .ok parsed => .ok { s with slot := s.slot ++ [parsed] }

/-- A `&mut dyn ParseValueSlot`: one of the two `ParseValueSlot` impls. -/
inductive VSlot : Type where
  | one : ValueSlotOne → VSlot
  | many : ValueSlotMany → VSlot

/-- `ParseValueSlot::fill_slot`, dispatched over the two impls. -/
def VSlot.fill_slot : VSlot → String → String → Except Error VSlot
  | .one s, arg, value => (s.fill_slot arg value).map .one
  | .many s, arg, value => (s.fill_slot arg value).map .many

/-- `enum ParseStructOption<'a>`: a flag slot or a value slot. -/
inductive Slot : Type where
  | flag : FlagVal → Slot
  | value : VSlot → Slot

/-- One level of `ParseStructOptions` without its parent link: the option
name table, the slots and the per-slot global markers.  The parent chain is
represented explicitly as a `List OptsFrame` (innermost parent first). -/
structure OptsFrame : Type where
  arg_to_slot : List (String × Nat)
  slots : List Slot
  slots_global : List Bool

/-- `ParseStructOptions::fill_slot`: flags are set; value slots consume the
first remaining token as their value (`MissingArgValue` if none is left).
The indexing `self.slots[*pos]` is always in bounds in the generated code;
an out-of-bounds index (a Rust panic) is modelled as `Error.Other`. -/
def OptsFrame.fill_slot (f : OptsFrame) (pos : Nat) (arg : String)
    (remaining_args : List String) : Except Error (OptsFrame × List String) :=
  match f.slots.get? pos with
  | none => .error (.Other "index out of bounds")
  | some (.flag b) =>
      .ok ({ f with slots := f.slots.set pos (.flag b.set_flag) }, remaining_args)
  | some (.value pvs) =>
      match remaining_args with
      | [] => .error (.MissingArgValue arg)
      | value :: rest =>
          match pvs.fill_slot arg value with
          | .error e => .error e
          | .ok pvs' => .ok ({ f with slots := f.slots.set pos (.value pvs') }, rest)

/-- Whether `frame` claims `arg` as a global option: the lookup
`self.arg_to_slot.iter().find(|(name, pos)| *name == arg && self.slots_global[*pos])`
from `ParseGlobalOptions::try_parse_global`. -/
def OptsFrame.find_global (f : OptsFrame) (arg : String) : Option (String × Nat) :=
  f.arg_to_slot.find? (fun p => p.1 == arg && f.slots_global.getD p.2 false)

/-- Whether `frame` claims `arg` locally: the lookup
`self.arg_to_slot.iter().find(|(name, _)| *name == arg)` from
`ParseStructOptions::parse`. -/
def OptsFrame.find_local (f : OptsFrame) (arg : String) : Option (String × Nat) :=
  f.arg_to_slot.find? (fun p => p.1 == arg)

/-- `ParseGlobalOptions::try_parse_global`, walking a chain of frames
(the first element plays the role of `self`, the rest is the parent chain):
at each level only globally-marked slots match; the first level that claims
the token fills its slot; `none` when no level claims it. -/
def try_parse_global : List OptsFrame → String → List String →
    Option (Except Error (List OptsFrame × List String))
  | [], _, _ => none
  | f :: ps, arg, remaining_args =>
      match f.find_global arg with
      | some (_, pos) =>
          some ((f.fill_slot pos arg remaining_args).map fun (f', r) => (f' :: ps, r))
      | none =>
          (try_parse_global ps arg remaining_args).map
            (·.map fun (ps', r) => (f :: ps', r))

/-- `ParseStructOptions::parse`: local lookup first (all local slots match,
global or not); on a miss, `try_parse_global` over the chain
(self with the global filter, then the parents); if nobody claims the token,
`UnknownArgument`. -/
def opts_parse (frame : OptsFrame) (parents : List OptsFrame) (arg : String)
    (remaining_args : List String) :
    Except Error (OptsFrame × List OptsFrame × List String) :=
  match frame.find_local arg with
  | some (_, pos) =>
      (frame.fill_slot pos arg remaining_args).map fun (f', r) => (f', parents, r)
  | none =>
      match try_parse_global (frame :: parents) arg remaining_args with
      | some (.error e) => .error e
      | some (.ok (f' :: ps', r)) => .ok (f', ps', r)
      | some (.ok ([], _)) => .error (.Other "unreachable")
      | none => .error (.UnknownArgument arg)

/-- `ParseStructPositional`: a named positional with its value slot. -/
structure Positional : Type where
  name : String
  slot : VSlot

/-- `ParseStructPositionals`. -/
structure Positionals : Type where
  positionals : List Positional
  last_is_repeating : Bool
  last_is_greedy : Bool

/-- `ParseStructPositionals::parse`.  Returns the updated state, the updated
positional index and the `Ok(..)` boolean of the Rust function (`true` when
non-positional parsing must stop, i.e. the greedy-remainder signal). -/
def Positionals.parse (p : Positionals) (index : Nat) (arg : String) :
    Except Error (Positionals × Nat × Bool) :=
  if index < p.positionals.length then
    match p.positionals.get? index with
    | none => .error (.Other "index out of bounds")
    | some pos =>
        match pos.slot.fill_slot pos.name arg with
        | .error e => .error e
        | .ok slot' =>
            let p' := { p with
              positionals := p.positionals.set index { pos with slot := slot' } }
            if p.last_is_repeating && index == p.positionals.length - 1 then
              .ok (p', index, p.last_is_greedy)
            else
              .ok (p', index + 1, false)
  else
    .error (.UnknownArgument arg)

/-- `next_arg.starts_with('-')`: for a single-character pattern this is
exactly "the first character is `'-'`". -/
def starts_with_dash (s : String) : Bool :=
  match s.toList with
  | [] => false
  | c :: _ => c == '-'

/-- Handling of a combined short-option token (`parse_struct_args`, the
`while let Some(short) = chars.next()` loop): every character except the last
is resolved with an empty following-argument slice, only the last character
sees the real remaining arguments. -/
def parse_bundle : OptsFrame → List OptsFrame → List Char → List String →
    Except Error (OptsFrame × List OptsFrame × List String)
  | frame, parents, [], remaining_args => .ok (frame, parents, remaining_args)
  | frame, parents, [short], remaining_args =>
      opts_parse frame parents ("-" ++ short.toString) remaining_args
  | frame, parents, short :: rest, remaining_args =>
      match opts_parse frame parents ("-" ++ short.toString) [] with
      | .error e => .error e
      | .ok (f', ps', _) => parse_bundle f' ps' rest remaining_args

mutual
/-- A command schema: the option tables and initial slots
(`ParseStructOptions` without the parent link), the positional descriptors
(`ParseStructPositionals`) and the subcommand set (`ParseStructSubCommand`;
static and dynamic subcommands are concatenated into one list, matching the
`chain` in `ParseStructSubCommand::parse`; `parse_subcommand == None` is the
empty list). -/
inductive Cmd : Type where
  | mk : (frame : OptsFrame) → (pstate : Positionals) →
      (subcommands : List SubCmd) → Cmd

/-- One subcommand: its `CommandInfo::name` and nested schema. -/
inductive SubCmd : Type where
  | mk : (name : String) → (cmd : Cmd) → SubCmd
end

def Cmd.frame : Cmd → OptsFrame
  | .mk f _ _ => f

def Cmd.pstate : Cmd → Positionals
  | .mk _ p _ => p

def Cmd.subcommands : Cmd → List SubCmd
  | .mk _ _ s => s

def SubCmd.name : SubCmd → String
  | .mk n _ => n

def SubCmd.cmd : SubCmd → Cmd
  | .mk _ c => c

/-- The scan `for subcommand in subcommands.chain(dynamic_subcommands)`
of `ParseStructSubCommand::parse`: first name match wins. -/
def find_subcommand : List SubCmd → String → Option SubCmd
  | [], _ => none
  | s :: rest, arg => if s.name == arg then some s else find_subcommand rest arg

/-- The result of one level of `parse_struct_args`: the final option slots,
the final positional state, and the dispatched subcommand (name and nested
result), if any. -/
inductive CmdResult : Type where
  | mk : (slots : List Slot) → (pstate : Positionals) →
      (sub : Option (String × CmdResult)) → CmdResult

def CmdResult.slots : CmdResult → List Slot
  | .mk s _ _ => s

def CmdResult.pstate : CmdResult → Positionals
  | .mk _ p _ => p

def CmdResult.sub : CmdResult → Option (String × CmdResult)
  | .mk _ _ s => s

theorem OptsFrame.fill_slot_length_le {f : OptsFrame} {pos : Nat} {arg : String}
    {rem : List String} {f' : OptsFrame} {r : List String}
    (h : f.fill_slot pos arg rem = .ok (f', r)) : r.length ≤ rem.length := by
  unfold OptsFrame.fill_slot at h
  split at h
  · cases h
  · cases h; exact Nat.le_refl _
  · split at h
    · cases h
    · split at h
      · cases h
      · cases h; simp

theorem try_parse_global_length_le {frames : List OptsFrame} {arg : String}
    {rem : List String} {frames' : List OptsFrame} {r : List String}
    (h : try_parse_global frames arg rem = some (.ok (frames', r))) :
    r.length ≤ rem.length := by
  induction frames generalizing frames' with
  | nil => cases h
  | cons f ps ih =>
      unfold try_parse_global at h
      split at h
      · simp only [Option.some.injEq] at h
        rcases hf : f.fill_slot _ arg rem with e | ⟨f', r'⟩
        · rw [hf] at h; cases h
        · rw [hf] at h
          simp only [Except.map] at h
          cases h
          exact OptsFrame.fill_slot_length_le hf
      · rcases hg : try_parse_global ps arg rem with _ | e
        · rw [hg] at h; cases h
        · rw [hg] at h
          cases e with
          | error e0 => simp [Except.map] at h
          | ok pr =>
              simp only [Option.map_some, Except.map, Option.some.injEq] at h
              cases h
              exact ih (by rw [hg])

theorem opts_parse_length_le {frame : OptsFrame} {parents : List OptsFrame}
    {arg : String} {rem : List String} {f' : OptsFrame} {ps' : List OptsFrame}
    {r : List String}
    (h : opts_parse frame parents arg rem = .ok (f', ps', r)) :
    r.length ≤ rem.length := by
  unfold opts_parse at h
  split at h
  · rcases hf : frame.fill_slot _ arg rem with e | ⟨f'', r'⟩
    · rw [hf] at h; cases h
    · rw [hf] at h
      simp only [Except.map] at h
      cases h
      exact OptsFrame.fill_slot_length_le hf
  · split at h
    · cases h
    · cases h
      exact try_parse_global_length_le (by assumption)
    · cases h
    · cases h

theorem parse_bundle_length_le {frame : OptsFrame} {parents : List OptsFrame}
    {chars : List Char} {rem : List String} {f' : OptsFrame}
    {ps' : List OptsFrame} {r : List String}
    (h : parse_bundle frame parents chars rem = .ok (f', ps', r)) :
    r.length ≤ rem.length := by
  induction chars generalizing frame parents f' ps' with
  | nil => cases h; exact Nat.le_refl _
  | cons short rest ih =>
      cases rest with
      | nil =>
          unfold parse_bundle at h
          exact opts_parse_length_le h
      | cons c2 rest2 =>
          unfold parse_bundle at h
          split at h
          · cases h
          · exact ih h

theorem find_subcommand_sizeOf_lt {l : List SubCmd} {arg : String} {s : SubCmd}
    (h : find_subcommand l arg = some s) : sizeOf s.cmd < sizeOf l := by
  induction l with
  | nil => cases h
  | cons hd tl ih =>
      unfold find_subcommand at h
      split at h
      · simp only [Option.some.injEq] at h
        subst h
        cases hd with
        | mk n c =>
            simp only [SubCmd.cmd, List.cons.sizeOf_spec, SubCmd.mk.sizeOf_spec]
            omega
      · have := ih h
        simp only [List.cons.sizeOf_spec]
        omega

theorem subcommands_sizeOf_lt (c : Cmd) : sizeOf c.subcommands < sizeOf c := by
  cases c with
  | mk f p s =>
      simp only [Cmd.subcommands, Cmd.mk.sizeOf_spec]
      omega

/-- `parse_struct_args` from `src/parser.rs`: the top-level token loop for
one command level.

- `c` is the (static) schema of this level, used for the subcommand dispatch;
- `frame`/`parents` is the live `ParseStructOptions` chain (current level
  first);
- `pstate`, `positional_index`, `help_requested`, `help_cmd` and
  `options_ended` are the loop-local mutable state of the Rust function.

On a subcommand match the driver recurses into the child schema (the
generated `parse_func` calls `parse_struct_args` on the child's fresh slots,
with the current level appended to the global-option chain), prepending a
synthetic `"help"` token when help was requested, and then stops scanning
(`break 'parse_args`), unsetting `help_requested`.

Byte-based operations on tokens (`len() > 2`, `&next_arg[1..2] != "-"`,
`next_arg[1..].chars()`) are rendered character-based; the two agree on all
ASCII tokens (and a non-ASCII second character makes the Rust code panic on
a char boundary, which no claim exercises). -/
def parse_struct_args (c : Cmd) (cmd_name : List String) (args : List String)
    (frame : OptsFrame) (parents : List OptsFrame) (pstate : Positionals)
    (positional_index : Nat) (help_requested help_cmd options_ended : Bool) :
    Except EarlyExit (CmdResult × List OptsFrame) :=
  match args with
  | [] =>
      if help_requested then .error (.help (String.intercalate " " cmd_name))
      else .ok (.mk frame.slots pstate none, parents)
  | next_arg :: remaining_args =>
      if (next_arg == "--help" || next_arg == "-h" || next_arg == "help")
          && !options_ended then
        parse_struct_args c cmd_name remaining_args frame parents pstate
          positional_index true (next_arg == "help") options_ended
      else if starts_with_dash next_arg && !options_ended then
        if next_arg == "--" then
          parse_struct_args c cmd_name remaining_args frame parents pstate
            positional_index help_requested help_cmd true
        else if help_cmd then
          .error (.err .OptionsAfterHelp)
        else if next_arg.length > 2 && next_arg.toList.get? 1 != some '-' then
          match hb : parse_bundle frame parents (next_arg.toList.drop 1)
              remaining_args with
          | .error e => .error (.err e)
          | .ok (f', ps', rem') =>
              parse_struct_args c cmd_name rem' f' ps' pstate positional_index
                help_requested help_cmd options_ended
        else
          match ho : opts_parse frame parents next_arg remaining_args with
          | .error e => .error (.err e)
          | .ok (f', ps', rem') =>
              parse_struct_args c cmd_name rem' f' ps' pstate positional_index
                help_requested help_cmd options_ended
      else
        match hs : find_subcommand c.subcommands next_arg with
        | some sub =>
            let child_args :=
              if help_requested then "help" :: remaining_args else remaining_args
            match parse_struct_args sub.cmd (cmd_name ++ [sub.name]) child_args
                sub.cmd.frame (frame :: parents) sub.cmd.pstate 0
                false false false with
            | .error e => .error e
            | .ok (child_res, frames') =>
                match frames' with
                | f' :: ps' =>
                    .ok (.mk f'.slots pstate (some (sub.name, child_res)), ps')
                | [] => .error (.err (.Other "unreachable"))
        | none =>
            match Positionals.parse pstate positional_index next_arg with
            | .error e => .error (.err e)
            | .ok (p', index', ended) =>
                parse_struct_args c cmd_name remaining_args frame parents p'
                  index' help_requested help_cmd (options_ended || ended)
termination_by (sizeOf c, args.length)
decreasing_by
  · exact Prod.Lex.right _ (Nat.lt_succ_self _)
  · exact Prod.Lex.right _ (Nat.lt_succ_self _)
  · exact Prod.Lex.right _ (Nat.lt_succ_of_le (parse_bundle_length_le hb))
  · exact Prod.Lex.right _ (Nat.lt_succ_of_le (opts_parse_length_le ho))
  · exact Prod.Lex.left _ _
      (Nat.lt_trans (find_subcommand_sizeOf_lt hs) (subcommands_sizeOf_lt c))
  · exact Prod.Lex.right _ (Nat.lt_succ_self _)

/-- Entry point for one command level with fresh state, as the generated
`from_args`/`parse_func` call it. -/
def parse_cmd (c : Cmd) (cmd_name : List String) (args : List String)
    (parents : List OptsFrame) : Except EarlyExit (CmdResult × List OptsFrame) :=
  parse_struct_args c cmd_name args c.frame parents c.pstate 0 false false false

/-- The identity conversion function (the `FromArgValue` impl for `String`):
never fails, stores the raw token. -/
def id_parse_func : String → String → Except String String := fun _ v => .ok v

/-- An empty positional table (a schema with no positional arguments). -/
def no_positionals : Positionals :=
  { positionals := [], last_is_repeating := false, last_is_greedy := false }

/-- Schema with one switch `--flag` and one repeating (non-greedy) positional
`strs : Vec<String>` — the schema of the spec's double-dash examples. -/
def flagStrsFrame : OptsFrame :=
  { arg_to_slot := [("--flag", 0)]
    slots := [.flag (.bool false)]
    slots_global := [false] }

def flagStrsPstateWith (l : List String) : Positionals :=
  { positionals := [{ name := "strs", slot := .many { slot := l, parse_func := id_parse_func } }]
    last_is_repeating := true
    last_is_greedy := false }

def flagStrsCmd : Cmd := .mk flagStrsFrame (flagStrsPstateWith []) []

/-- Schema with one repeating option `--m <val>` backed by a `Vec` slot. -/
def repFrame (l : List String) : OptsFrame :=
  { arg_to_slot := [("--m", 0)]
    slots := [.value (.many { slot := l, parse_func := id_parse_func })]
    slots_global := [false] }

def repCmd : Cmd := .mk (repFrame []) no_positionals []

/-- The token list that supplies `--m` once per element of `vals`. -/
def repArgs : List String → List String
  | [] => []
  | v :: vs => "--m" :: v :: repArgs vs

/-- Schema with a single non-repeating value option `--foo`. -/
def fooFrame : OptsFrame :=
  { arg_to_slot := [("--foo", 0)]
    slots := [.value (.one { slot := none, parse_func := id_parse_func })]
    slots_global := [false] }

def fooCmd : Cmd := .mk fooFrame no_positionals []

/-- **C10**: integer-typed flag slots count occurrences with saturating
addition: the default is 0 and after `k` occurrences of the flag the counter
holds `min k max` (never wrapping past the type's maximal value `max`). -/
theorem counter_flag_saturates :
    (∀ max : Nat, FlagVal.defaultCounter max = .counter max 0) ∧
    (∀ k max : Nat,
      FlagVal.set_flag^[k] (FlagVal.defaultCounter max) = .counter max (min k max)) := by
  constructor
  · intro max; rfl
  · intro k max
    induction k with
    | zero => simp [FlagVal.defaultCounter]
    | succ k ih =>
        rw [Function.iterate_succ_apply', ih]
        simp only [FlagVal.set_flag]
        congr 1
        omega

theorem rep_loop (vals acc : List String) :
    parse_struct_args repCmd ["prog"] (repArgs vals) (repFrame acc) []
      no_positionals 0 false false false
      = .ok (.mk [.value (.many { slot := acc ++ vals, parse_func := id_parse_func })]
          no_positionals none, []) := by
  induction vals generalizing acc with
  | nil =>
      rw [repArgs, parse_struct_args]
      simp [repFrame]
  | cons v vs ih =>
      rw [repArgs, parse_struct_args]
      simp +decide [starts_with_dash, opts_parse, OptsFrame.find_local,
        OptsFrame.find_global, try_parse_global, OptsFrame.fill_slot, repFrame,
        VSlot.fill_slot, ValueSlotMany.fill_slot, id_parse_func, Except.map,
        List.find?, List.set]
      have := ih (acc ++ [v])
      simp [repFrame] at this
      rw [this]

/-- **C9**: a repeating (`Vec`-backed) value slot appends each successfully
converted occurrence at the end, so supplying the option `n` times yields a
collection of length exactly `n` whose elements appear in encounter order. -/
theorem repeating_option_collects_in_order :
    (∀ (s : ValueSlotMany) (arg value parsed : String),
        s.parse_func arg value = .ok parsed →
        s.fill_slot arg value = .ok { s with slot := s.slot ++ [parsed] }) ∧
    (∀ vals : List String,
      parse_cmd repCmd ["prog"] (repArgs vals) []
        = .ok (.mk [.value (.many { slot := vals, parse_func := id_parse_func })]
            no_positionals none, [])) := by
  constructor
  · intro s arg value parsed h
    simp [ValueSlotMany.fill_slot, h]
  · intro vals
    have := rep_loop vals []
    simpa [parse_cmd, repCmd, Cmd.frame, Cmd.pstate] using this

theorem repeating_option_collects_in_order_witness :
    (ValueSlotMany.fill_slot { slot := ["a"], parse_func := id_parse_func } "--m" "b"
        = .ok { slot := ["a", "b"], parse_func := id_parse_func }) ∧
    (parse_cmd repCmd ["prog"] ["--m", "x", "--m", "y"] []
        = .ok (.mk [.value (.many { slot := ["x", "y"], parse_func := id_parse_func })]
            no_positionals none, [])) :=
  ⟨repeating_option_collects_in_order.1
      { slot := ["a"], parse_func := id_parse_func } "--m" "b" "b" rfl,
    repeating_option_collects_in_order.2 ["x", "y"]⟩

/-- **C5**: a non-repeating value slot that already holds a value rejects a
second fill with `DuplicateOption` naming the option (the failed fill returns
before storing anything, so the held value is untouched); in particular
`["--foo","1","--foo","2"]` against a single non-repeating `--foo` fails with
`DuplicateOption "--foo"`. -/
theorem duplicate_option_rejected :
    (∀ (s : ValueSlotOne) (arg value : String), s.slot.isSome →
        s.fill_slot arg value = .error (.DuplicateOption arg)) ∧
    (parse_cmd fooCmd ["prog"] ["--foo", "1", "--foo", "2"] []
      = .error (.err (.DuplicateOption "--foo"))) := by
  constructor
  · intro s arg value h
    simp [ValueSlotOne.fill_slot, h]
  · simp +decide [parse_cmd, parse_struct_args, fooCmd, fooFrame, no_positionals,
      Cmd.frame, Cmd.pstate, Cmd.subcommands, starts_with_dash, opts_parse,
      OptsFrame.find_local, OptsFrame.find_global, try_parse_global,
      OptsFrame.fill_slot, VSlot.fill_slot, ValueSlotOne.fill_slot,
      id_parse_func, Except.map, find_subcommand, List.find?, List.set]

theorem duplicate_option_rejected_witness :
    ValueSlotOne.fill_slot { slot := some "1", parse_func := id_parse_func } "--foo" "2"
      = .error (.DuplicateOption "--foo") :=
  duplicate_option_rejected.1 { slot := some "1", parse_func := id_parse_func } "--foo" "2" rfl

/-- Schema with flags `-q`, `-v` and a value option `-n`. -/
def bundleFrame : OptsFrame :=
  { arg_to_slot := [("-q", 0), ("-v", 1), ("-n", 2)]
    slots := [.flag (.bool false), .flag (.bool false),
      .value (.one { slot := none, parse_func := id_parse_func })]
    slots_global := [false, false, false] }

def bundleCmd : Cmd := .mk bundleFrame no_positionals []

/-- Schema with no options and no positionals. -/
def emptyCmd : Cmd :=
  .mk { arg_to_slot := [], slots := [], slots_global := [] } no_positionals []

/-- **C1**: consuming a literal `--` while scanning enters the
`options_ended` state (the token itself reaches no slot); from then on every
token — help keywords and `-`-prefixed tokens included — goes through the
subcommand/positional path only, with `options_ended` staying set, and the
two double-dash examples of the spec evaluate as claimed. -/
theorem double_dash_ends_options :
    (∀ (c : Cmd) (n : List String) (rest : List String) (frame : OptsFrame)
        (parents : List OptsFrame) (pstate : Positionals) (pi : Nat) (hr hc : Bool),
      parse_struct_args c n ("--" :: rest) frame parents pstate pi hr hc false
        = parse_struct_args c n rest frame parents pstate pi hr hc true) ∧
    (∀ (c : Cmd) (n : List String) (t : String) (rest : List String)
        (frame : OptsFrame) (parents : List OptsFrame) (pstate : Positionals)
        (pi : Nat) (hr hc : Bool),
      find_subcommand c.subcommands t = none →
      parse_struct_args c n (t :: rest) frame parents pstate pi hr hc true
        = match Positionals.parse pstate pi t with
          | .error e => .error (.err e)
          | .ok (p', i', _) =>
              parse_struct_args c n rest frame parents p' i' hr hc true) ∧
    (∀ (c : Cmd) (n : List String) (t : String) (rest : List String)
        (frame : OptsFrame) (parents : List OptsFrame) (pstate : Positionals)
        (pi : Nat) (hr hc : Bool) (sub : SubCmd),
      find_subcommand c.subcommands t = some sub →
      parse_struct_args c n (t :: rest) frame parents pstate pi hr hc true
        = match parse_struct_args sub.cmd (n ++ [sub.name])
              (if hr then "help" :: rest else rest) sub.cmd.frame
              (frame :: parents) sub.cmd.pstate 0 false false false with
          | .error e => .error e
          | .ok (child_res, frames') =>
              match frames' with
              | f' :: ps' =>
                  .ok (.mk f'.slots pstate (some (sub.name, child_res)), ps')
              | [] => .error (.err (.Other "unreachable"))) ∧
    (parse_cmd flagStrsCmd ["prog"] ["--", "a", "-b", "--flag"] []
      = .ok (.mk [.flag (.bool false)] (flagStrsPstateWith ["a", "-b", "--flag"]) none, [])) ∧
    (parse_cmd flagStrsCmd ["prog"] ["--flag", "--", "-a", "b"] []
      = .ok (.mk [.flag (.bool true)] (flagStrsPstateWith ["-a", "b"]) none, [])) := by
  refine ⟨?_, ?_, ?_, ?_, ?_⟩
  · intro c n rest frame parents pstate pi hr hc
    rw [parse_struct_args]
    simp +decide [starts_with_dash]
  · intro c n t rest frame parents pstate pi hr hc hsub
    rw [parse_struct_args]
    simp [hsub]
    split
    · simp_all
    · rfl
  · intro c n t rest frame parents pstate pi hr hc sub hsub
    rw [parse_struct_args]
    simp [hsub]
    split
    · rename_i sub2 heq
      rw [hsub] at heq
      simp only [Option.some.injEq] at heq
      subst heq
      rfl
    · simp_all
  · simp +decide [parse_cmd, parse_struct_args, flagStrsCmd, flagStrsFrame,
      flagStrsPstateWith, no_positionals, Cmd.frame, Cmd.pstate, Cmd.subcommands,
      starts_with_dash, opts_parse, OptsFrame.find_local, OptsFrame.find_global,
      try_parse_global, OptsFrame.fill_slot, VSlot.fill_slot, FlagVal.set_flag,
      ValueSlotMany.fill_slot, id_parse_func, Except.map, find_subcommand,
      Positionals.parse, List.find?, List.set]
  · simp +decide [parse_cmd, parse_struct_args, flagStrsCmd, flagStrsFrame,
      flagStrsPstateWith, no_positionals, Cmd.frame, Cmd.pstate, Cmd.subcommands,
      starts_with_dash, opts_parse, OptsFrame.find_local, OptsFrame.find_global,
      try_parse_global, OptsFrame.fill_slot, VSlot.fill_slot, FlagVal.set_flag,
      ValueSlotMany.fill_slot, id_parse_func, Except.map, find_subcommand,
      Positionals.parse, List.find?, List.set]

theorem double_dash_ends_options_witness :
    (parse_struct_args flagStrsCmd ["prog"] ["--", "z"] flagStrsFrame []
        (flagStrsPstateWith []) 0 false false false
      = parse_struct_args flagStrsCmd ["prog"] ["z"] flagStrsFrame []
        (flagStrsPstateWith []) 0 false false true) ∧
    (parse_struct_args flagStrsCmd ["prog"] ["--help"] flagStrsFrame []
        (flagStrsPstateWith []) 0 false false true
      = .ok (.mk [.flag (.bool false)] (flagStrsPstateWith ["--help"]) none, [])) := by
  constructor
  · exact double_dash_ends_options.1 flagStrsCmd ["prog"] ["z"] flagStrsFrame []
      (flagStrsPstateWith []) 0 false false
  · rw [double_dash_ends_options.2.1 flagStrsCmd ["prog"] "--help" [] flagStrsFrame
      [] (flagStrsPstateWith []) 0 false false rfl]
    simp +decide [parse_struct_args, Positionals.parse, flagStrsPstateWith,
      flagStrsFrame, VSlot.fill_slot, ValueSlotMany.fill_slot, id_parse_func,
      Except.map, List.set]

/-- Branch lemma for combined short-option tokens: a token of more than
2 characters starting with `-` whose second character is not `-` is handled
by the bundle path (`parse_bundle` over its characters after the dash). -/
theorem bundle_token_step (c : Cmd) (n : List String) (t : String)
    (rest : List String) (frame : OptsFrame) (parents : List OptsFrame)
    (pstate : Positionals) (pi : Nat) (hr : Bool)
    (hdash : starts_with_dash t = true) (hlen : 2 < t.length)
    (hsnd : t.toList.get? 1 ≠ some '-') :
    parse_struct_args c n (t :: rest) frame parents pstate pi hr false false
      = match parse_bundle frame parents (t.toList.drop 1) rest with
        | .error e => .error (.err e)
        | .ok (f', ps', rem') =>
            parse_struct_args c n rem' f' ps' pstate pi hr false false := by
  have hne1 : (t == "--help") = false := by
    simp only [beq_eq_false_iff_ne]
    rintro rfl
    exact hsnd (by decide)
  have hne2 : (t == "-h") = false := by
    simp only [beq_eq_false_iff_ne]
    rintro rfl
    exact absurd hlen (by decide)
  have hne3 : (t == "help") = false := by
    simp only [beq_eq_false_iff_ne]
    rintro rfl
    exact absurd hdash (by decide)
  have hne4 : (t == "--") = false := by
    simp only [beq_eq_false_iff_ne]
    rintro rfl
    exact absurd hlen (by decide)
  replace hsnd : t.data[1]? ≠ some '-' := by simpa using hsnd
  rw [parse_struct_args]
  simp [hne1, hne2, hne3, hne4, hdash, hlen, hsnd]
  split <;> rename_i hb <;>
    rw [show List.drop 1 t.data = t.data.tail from List.drop_one t.data] at hb <;>
    rw [hb]

/-- **C2**: a token of more than 2 characters that starts with `-` whose
second character is not `-` is split into single-character short options:
every character except the last is resolved against an empty
following-argument list (so a value-taking option in a non-last position
fails with `MissingArgValue`), only the last may consume the next token.
`["-qvn","5"]` and `["-qv","-n","5"]` give identical results and
`["-nq","5"]` fails with `MissingArgValue "-n"`. -/
theorem short_option_bundling :
    (∀ (c : Cmd) (n : List String) (t : String) (rest : List String)
        (frame : OptsFrame) (parents : List OptsFrame) (pstate : Positionals)
        (pi : Nat) (hr : Bool),
      starts_with_dash t = true → 2 < t.length → t.toList.get? 1 ≠ some '-' →
      parse_struct_args c n (t :: rest) frame parents pstate pi hr false false
        = match parse_bundle frame parents (t.toList.drop 1) rest with
          | .error e => .error (.err e)
          | .ok (f', ps', rem') =>
              parse_struct_args c n rem' f' ps' pstate pi hr false false) ∧
    (∀ (frame : OptsFrame) (parents : List OptsFrame) (c1 : Char)
        (cs : List Char) (rest : List String),
      cs ≠ [] →
      parse_bundle frame parents (c1 :: cs) rest
        = match opts_parse frame parents ("-" ++ c1.toString) [] with
          | .error e => .error e
          | .ok (f', ps', _) => parse_bundle f' ps' cs rest) ∧
    (∀ (f : OptsFrame) (pos : Nat) (arg : String) (vs : VSlot),
      f.slots.get? pos = some (.value vs) →
      f.fill_slot pos arg [] = .error (.MissingArgValue arg)) ∧
    (parse_cmd bundleCmd ["prog"] ["-qvn", "5"] []
      = parse_cmd bundleCmd ["prog"] ["-qv", "-n", "5"] []) ∧
    (parse_cmd bundleCmd ["prog"] ["-nq", "5"] []
      = .error (.err (.MissingArgValue "-n"))) := by
  refine ⟨bundle_token_step, ?_, ?_, ?_, ?_⟩
  · intro frame parents c1 cs rest hcs
    match cs with
    | [] => exact absurd rfl hcs
    | c2 :: cs2 => rfl
  · intro f pos arg vs hget
    rw [List.get?_eq_getElem?] at hget
    simp [OptsFrame.fill_slot, hget]
  · rw [show parse_cmd bundleCmd ["prog"] ["-qvn", "5"] []
        = parse_struct_args bundleCmd ["prog"] ("-qvn" :: ["5"]) bundleFrame []
            no_positionals 0 false false false from rfl,
      bundle_token_step bundleCmd ["prog"] "-qvn" ["5"] bundleFrame []
        no_positionals 0 false (by decide) (by decide) (by decide),
      show parse_cmd bundleCmd ["prog"] ["-qv", "-n", "5"] []
        = parse_struct_args bundleCmd ["prog"] ("-qv" :: ["-n", "5"]) bundleFrame []
            no_positionals 0 false false false from rfl,
      bundle_token_step bundleCmd ["prog"] "-qv" ["-n", "5"] bundleFrame []
        no_positionals 0 false (by decide) (by decide) (by decide)]
    simp +decide [parse_struct_args, bundleCmd, bundleFrame,
      no_positionals, Cmd.frame, Cmd.pstate, Cmd.subcommands, starts_with_dash,
      parse_bundle, opts_parse, OptsFrame.find_local, OptsFrame.find_global,
      try_parse_global, OptsFrame.fill_slot, VSlot.fill_slot, FlagVal.set_flag,
      ValueSlotOne.fill_slot, id_parse_func, Except.map, find_subcommand,
      Positionals.parse, List.find?, List.set,
      show ("-" ++ 'q'.toString) = "-q" from by decide,
      show ("-" ++ 'v'.toString) = "-v" from by decide,
      show ("-" ++ 'n'.toString) = "-n" from by decide]
  · rw [show parse_cmd bundleCmd ["prog"] ["-nq", "5"] []
        = parse_struct_args bundleCmd ["prog"] ("-nq" :: ["5"]) bundleFrame []
            no_positionals 0 false false false from rfl,
      bundle_token_step bundleCmd ["prog"] "-nq" ["5"] bundleFrame []
        no_positionals 0 false (by decide) (by decide) (by decide)]
    simp +decide [parse_bundle, opts_parse, OptsFrame.find_local,
      OptsFrame.find_global, try_parse_global, OptsFrame.fill_slot, bundleFrame,
      VSlot.fill_slot, ValueSlotOne.fill_slot, id_parse_func, Except.map,
      List.find?, List.set,
      show ("-" ++ 'n'.toString) = "-n" from by decide,
      show ("-" ++ 'q'.toString) = "-q" from by decide]

theorem short_option_bundling_witness :
    (parse_struct_args bundleCmd ["prog"] ["-qv"] bundleFrame [] no_positionals
        0 false false false
      = .ok (.mk [.flag (.bool true), .flag (.bool true),
          .value (.one { slot := none, parse_func := id_parse_func })]
          no_positionals none, [])) ∧
    (parse_bundle bundleFrame [] ['n', 'q'] ["5"]
      = .error (.MissingArgValue "-n")) ∧
    (OptsFrame.fill_slot bundleFrame 2 "-n" [] = .error (.MissingArgValue "-n")) := by
  refine ⟨?_, ?_, ?_⟩
  · rw [short_option_bundling.1 bundleCmd ["prog"] "-qv" [] bundleFrame []
      no_positionals 0 false (by decide) (by decide) (by decide)]
    simp +decide [parse_struct_args, parse_bundle, opts_parse,
      OptsFrame.find_local, OptsFrame.find_global, try_parse_global,
      OptsFrame.fill_slot, bundleFrame, VSlot.fill_slot, FlagVal.set_flag,
      id_parse_func, Except.map, List.find?, List.set,
      show ("-" ++ 'q'.toString) = "-q" from by decide,
      show ("-" ++ 'v'.toString) = "-v" from by decide]
  · rw [short_option_bundling.2.1 bundleFrame [] 'n' ['q'] ["5"] (by decide)]
    simp +decide [parse_bundle, opts_parse, OptsFrame.find_local,
      OptsFrame.find_global, try_parse_global, OptsFrame.fill_slot, bundleFrame,
      VSlot.fill_slot, id_parse_func, Except.map, List.find?, List.set,
      show ("-" ++ 'n'.toString) = "-n" from by decide,
      show ("-" ++ 'q'.toString) = "-q" from by decide]
  · exact short_option_bundling.2.2.1 bundleFrame 2 "-n"
      (.one { slot := none, parse_func := id_parse_func }) rfl

/-- **C6** (amended): literal `help` sets help-requested and help-via-keyword;
`--help`/`-h` set help-requested but *re-assign* help-via-keyword to false
(each help token overwrites `help_cmd` with `token == "help"`); an
option-looking token before `--` fails with `OptionsAfterHelp` exactly when
`help_cmd` is currently set, i.e. when the most recent help token was the
literal `help`. -/
theorem help_keyword_forbids_options :
    (∀ (c : Cmd) (n : List String) (t : String) (rest : List String)
        (frame : OptsFrame) (parents : List OptsFrame) (pstate : Positionals)
        (pi : Nat) (hr hc : Bool),
      (t == "--help" || t == "-h" || t == "help") = true →
      parse_struct_args c n (t :: rest) frame parents pstate pi hr hc false
        = parse_struct_args c n rest frame parents pstate pi true (t == "help") false) ∧
    (∀ (c : Cmd) (n : List String) (t : String) (rest : List String)
        (frame : OptsFrame) (parents : List OptsFrame) (pstate : Positionals)
        (pi : Nat) (hr : Bool),
      (t == "--help" || t == "-h" || t == "help") = false →
      starts_with_dash t = true → t ≠ "--" →
      parse_struct_args c n (t :: rest) frame parents pstate pi hr true false
        = .error (.err .OptionsAfterHelp)) := by
  constructor
  · intro c n t rest frame parents pstate pi hr hc ht
    rw [parse_struct_args]
    simp [ht]
  · intro c n t rest frame parents pstate pi hr ht hdash hne
    have hne' : (t == "--") = false := by
      simp only [beq_eq_false_iff_ne]
      exact hne
    rw [parse_struct_args]
    simp [ht, hdash, hne']

theorem help_keyword_forbids_options_witness :
    (parse_struct_args emptyCmd ["prog"] ["--help", "a"]
        { arg_to_slot := [], slots := [], slots_global := [] } [] no_positionals
        0 false true false
      = parse_struct_args emptyCmd ["prog"] ["a"]
        { arg_to_slot := [], slots := [], slots_global := [] } [] no_positionals
        0 true false false) ∧
    (parse_struct_args emptyCmd ["prog"] ["-x"]
        { arg_to_slot := [], slots := [], slots_global := [] } [] no_positionals
        0 true true false
      = .error (.err .OptionsAfterHelp)) := by
  constructor
  · have := help_keyword_forbids_options.1 emptyCmd ["prog"] "--help" ["a"]
      { arg_to_slot := [], slots := [], slots_global := [] } [] no_positionals
      0 false true (by decide)
    simpa using this
  · exact help_keyword_forbids_options.2 emptyCmd ["prog"] "-x" []
      { arg_to_slot := [], slots := [], slots_global := [] } [] no_positionals
      0 true (by decide) (by decide) (by decide)

/-- **C6** counterexample to the claim as stated: in
`["help", "-h", "-x"]` the literal `help` token appears first (so the claim
predicts `OptionsAfterHelp` for the later option-looking `-x`), but the
intervening `-h` re-assigns `help_cmd` to false, so the parse instead fails
with `UnknownArgument "-x"`. -/
theorem help_keyword_reset_counterexample :
    parse_cmd emptyCmd ["prog"] ["help", "-h", "-x"] []
      = .error (.err (.UnknownArgument "-x")) ∧
    parse_cmd emptyCmd ["prog"] ["help", "-h", "-x"] []
      ≠ .error (.err .OptionsAfterHelp) := by
  constructor
  · simp +decide [parse_cmd, parse_struct_args, emptyCmd, no_positionals,
      Cmd.frame, Cmd.pstate, Cmd.subcommands, starts_with_dash, opts_parse,
      OptsFrame.find_local, OptsFrame.find_global, try_parse_global,
      OptsFrame.fill_slot, id_parse_func, Except.map, find_subcommand,
      Positionals.parse, List.find?]
  · intro h
    rw [show parse_cmd emptyCmd ["prog"] ["help", "-h", "-x"] []
        = .error (.err (.UnknownArgument "-x")) from by
      simp +decide [parse_cmd, parse_struct_args, emptyCmd, no_positionals,
        Cmd.frame, Cmd.pstate, Cmd.subcommands, starts_with_dash, opts_parse,
        OptsFrame.find_local, OptsFrame.find_global, try_parse_global,
        OptsFrame.fill_slot, id_parse_func, Except.map, find_subcommand,
        Positionals.parse, List.find?]] at h
    exact absurd h (by simp)

/-- Positional state with a single repeating **greedy** positional `strs`
holding `l`, as produced by a `#[argp(positional, greedy)] Vec<String>`
field. -/
def greedyPstateWith (l : List String) : Positionals :=
  { positionals := [{ name := "strs", slot := .many { slot := l, parse_func := id_parse_func } }]
    last_is_repeating := true
    last_is_greedy := true }

/-- Schema with the switch `--flag` and the greedy positional `strs`. -/
def greedyCmd : Cmd := .mk flagStrsFrame (greedyPstateWith []) []

/-- A positional table whose last entry is a repeating slot named `nm`
holding `l` (with `String`-identity conversion), preceded by `ps`. -/
def pstate_last_rep (ps : List Positional) (nm : String) (l : List String)
    (g : Bool) : Positionals :=
  { positionals := ps ++ [{ name := nm, slot := .many { slot := l, parse_func := id_parse_func } }]
    last_is_repeating := true
    last_is_greedy := g }

theorem pstate_last_rep_parse (ps : List Positional) (nm : String)
    (l : List String) (g : Bool) (t : String) :
    Positionals.parse (pstate_last_rep ps nm l g) ps.length t
      = .ok (pstate_last_rep ps nm (l ++ [t]) g, ps.length, g) := by
  rw [Positionals.parse]
  simp [pstate_last_rep, VSlot.fill_slot, ValueSlotMany.fill_slot, id_parse_func,
    Except.map]

theorem greedy_capture_loop (c : Cmd) (hsub : c.subcommands = [])
    (n : List String) (ts : List String) (frame : OptsFrame)
    (parents : List OptsFrame) (ps : List Positional) (nm : String)
    (acc : List String) (g hc : Bool) :
    parse_struct_args c n ts frame parents (pstate_last_rep ps nm acc g)
      ps.length false hc true
      = .ok (.mk frame.slots (pstate_last_rep ps nm (acc ++ ts) g) none, parents) := by
  induction ts generalizing acc with
  | nil =>
      rw [parse_struct_args]
      simp
  | cons t rest ih =>
      rw [parse_struct_args]
      simp only [Bool.not_true, Bool.and_false, Bool.false_eq_true, if_false]
      split
      · rename_i sub heq
        rw [hsub] at heq
        simp [find_subcommand] at heq
      · rw [pstate_last_rep_parse]
        simpa using ih (acc ++ [t])

/-- **C3**: once the last positional is repeating and greedy, capturing a
value into it signals the driver to stop option scanning (the `Ok(true)`
return of `ParseStructPositionals::parse`), and from that state on every
token of the invocation — `-`-prefixed tokens, `--help`/`-h`/`help` and the
literal `--` included — is appended verbatim, in order, to the greedy
positional's collection (for a schema without subcommands, as produced for a
greedy positional). -/
theorem greedy_positional_captures_everything :
    (∀ (p : Positionals) (index : Nat) (arg : String) (p' : Positionals)
        (i' : Nat) (stop : Bool),
      p.last_is_repeating = true → p.last_is_greedy = true →
      index = p.positionals.length - 1 →
      Positionals.parse p index arg = .ok (p', i', stop) →
      i' = index ∧ stop = true) ∧
    (∀ (c : Cmd) (n : List String) (ts : List String) (frame : OptsFrame)
        (parents : List OptsFrame) (ps : List Positional) (nm : String)
        (acc : List String) (g hc : Bool),
      c.subcommands = [] →
      parse_struct_args c n ts frame parents (pstate_last_rep ps nm acc g)
        ps.length false hc true
        = .ok (.mk frame.slots (pstate_last_rep ps nm (acc ++ ts) g) none,
            parents)) ∧
    (parse_cmd greedyCmd ["prog"] ["x", "--", "-b", "--flag", "help"] []
      = .ok (.mk [.flag (.bool false)]
          (greedyPstateWith ["x", "--", "-b", "--flag", "help"]) none, [])) := by
  refine ⟨?_, ?_, ?_⟩
  · intro p index arg p' i' stop hrep hgreedy hidx hparse
    rw [Positionals.parse] at hparse
    split at hparse
    · split at hparse
      · exact absurd hparse (by simp)
      · split at hparse
        · exact absurd hparse (by simp)
        · rw [hrep] at hparse
          simp only [Bool.true_and] at hparse
          split at hparse
          · simp only [Except.ok.injEq, Prod.mk.injEq] at hparse
            obtain ⟨-, h2, h3⟩ := hparse
            exact ⟨h2.symm, h3 ▸ hgreedy⟩
          · rename_i hcond
            simp only [beq_iff_eq] at hcond
            exact absurd hidx hcond
    · exact absurd hparse (by simp)
  · intro c n ts frame parents ps nm acc g hc hsub
    exact greedy_capture_loop c hsub n ts frame parents ps nm acc g hc
  · have h0 :
        parse_cmd greedyCmd ["prog"] ["x", "--", "-b", "--flag", "help"] []
          = parse_struct_args greedyCmd ["prog"] ["--", "-b", "--flag", "help"]
              flagStrsFrame [] (pstate_last_rep [] "strs" ["x"] true) 0
              false false true := by
      rw [parse_cmd, parse_struct_args]
      have hx := pstate_last_rep_parse [] "strs" [] true "x"
      simp only [List.length_nil] at hx
      simp +decide [greedyCmd, Cmd.frame, Cmd.pstate, Cmd.subcommands,
        starts_with_dash, find_subcommand,
        show greedyPstateWith [] = pstate_last_rep [] "strs" [] true from rfl,
        hx]
    rw [h0]
    have := greedy_capture_loop greedyCmd (by rfl) ["prog"]
      ["--", "-b", "--flag", "help"] flagStrsFrame [] [] "strs" ["x"] true false
    simp only [List.length_nil] at this
    rw [this]
    simp [pstate_last_rep, greedyPstateWith, flagStrsFrame]

theorem greedy_positional_captures_everything_witness :
    (parse_struct_args greedyCmd ["prog"] ["--", "-y"] flagStrsFrame []
        (pstate_last_rep [] "strs" ["x"] true) 0 false false true
      = .ok (.mk flagStrsFrame.slots
          (pstate_last_rep [] "strs" ["x", "--", "-y"] true) none, [])) ∧
    ((0 : Nat) = 0 ∧ true = true) := by
  constructor
  · have := greedy_positional_captures_everything.2.1 greedyCmd ["prog"]
      ["--", "-y"] flagStrsFrame [] [] "strs" ["x"] true false (by rfl)
    simpa using this
  · exact greedy_positional_captures_everything.1
      (pstate_last_rep [] "strs" [] true) 0 "x"
      (pstate_last_rep [] "strs" ["x"] true) 0 true rfl rfl
      (by simp [pstate_last_rep])
      (by simpa using pstate_last_rep_parse [] "strs" [] true "x")

theorem try_parse_global_none {frames : List OptsFrame} {arg : String}
    {rem : List String}
    (h : ∀ g ∈ frames, g.find_global arg = none) :
    try_parse_global frames arg rem = none := by
  induction frames with
  | nil => rfl
  | cons f ps ih =>
      rw [try_parse_global]
      rw [h f (by simp)]
      rw [ih (fun g hg => h g (by simp [hg]))]
      rfl

theorem try_parse_global_first_claim {ps1 : List OptsFrame} {fstar : OptsFrame}
    {ps2 : List OptsFrame} {arg : String} {rem : List String} {name : String}
    {pos : Nat}
    (h1 : ∀ g ∈ ps1, g.find_global arg = none)
    (h2 : fstar.find_global arg = some (name, pos)) :
    try_parse_global (ps1 ++ fstar :: ps2) arg rem
      = some ((fstar.fill_slot pos arg rem).map fun (f', r) =>
          (ps1 ++ f' :: ps2, r)) := by
  induction ps1 with
  | nil =>
      rw [List.nil_append, try_parse_global, h2]
      simp
  | cons g gs ih =>
      rw [List.cons_append, try_parse_global]
      rw [h1 g (by simp)]
      rw [ih (fun g' hg' => h1 g' (by simp [hg']))]
      rcases hfill : fstar.fill_slot pos arg rem with e | ⟨f', r⟩ <;>
        simp [Except.map, hfill]

/-- Schema with one **global** value option `--gopt` at the root and one
subcommand `sub` with no options of its own. -/
def childCmd : Cmd :=
  .mk { arg_to_slot := [], slots := [], slots_global := [] } no_positionals []

def globalRootFrame : OptsFrame :=
  { arg_to_slot := [("--gopt", 0)]
    slots := [.value (.one { slot := none, parse_func := id_parse_func })]
    slots_global := [true] }

def globalRootCmd : Cmd := .mk globalRootFrame no_positionals [.mk "sub" childCmd]

/-- The same schema but with `--gopt` replaced by a **non-global** option
`--lopt`. -/
def localRootFrame : OptsFrame :=
  { arg_to_slot := [("--lopt", 0)]
    slots := [.value (.one { slot := none, parse_func := id_parse_func })]
    slots_global := [false] }

def localRootCmd : Cmd := .mk localRootFrame no_positionals [.mk "sub" childCmd]

/-- **C4**: option resolution is local-first (a locally-declared option fills
the local slot, the parent chain untouched); an unclaimed token walks the
chain outward, each ancestor matching only globally-marked slots, and the
first claiming level fills its own slot with all other levels unchanged; if
no level claims it the parse fails with `UnknownArgument`.  Concretely, a
global root option is settable from inside subcommand `sub` and its value
lands in the root's slot, while a non-global root option yields
`UnknownArgument` from inside `sub`. -/
theorem global_option_resolution :
    (∀ (frame : OptsFrame) (parents : List OptsFrame) (arg : String)
        (rem : List String) (name : String) (pos : Nat),
      frame.find_local arg = some (name, pos) →
      opts_parse frame parents arg rem
        = (frame.fill_slot pos arg rem).map fun (f', r) => (f', parents, r)) ∧
    (∀ (frame : OptsFrame) (ps1 : List OptsFrame) (fstar : OptsFrame)
        (ps2 : List OptsFrame) (arg : String) (rem : List String)
        (name : String) (pos : Nat),
      frame.find_local arg = none → frame.find_global arg = none →
      (∀ g ∈ ps1, g.find_global arg = none) →
      fstar.find_global arg = some (name, pos) →
      opts_parse frame (ps1 ++ fstar :: ps2) arg rem
        = (fstar.fill_slot pos arg rem).map fun (f', r) =>
            (frame, ps1 ++ f' :: ps2, r)) ∧
    (∀ (frame : OptsFrame) (parents : List OptsFrame) (arg : String)
        (rem : List String),
      frame.find_local arg = none → frame.find_global arg = none →
      (∀ g ∈ parents, g.find_global arg = none) →
      opts_parse frame parents arg rem = .error (.UnknownArgument arg)) ∧
    (parse_cmd globalRootCmd ["prog"] ["sub", "--gopt", "7"] []
      = .ok (.mk [.value (.one { slot := some "7", parse_func := id_parse_func })]
          no_positionals (some ("sub", .mk [] no_positionals none)), [])) ∧
    (parse_cmd localRootCmd ["prog"] ["sub", "--lopt", "7"] []
      = .error (.err (.UnknownArgument "--lopt"))) := by
  refine ⟨?_, ?_, ?_, ?_, ?_⟩
  · intro frame parents arg rem name pos h
    rw [opts_parse, h]
  · intro frame ps1 fstar ps2 arg rem name pos hlocal hglobal h1 h2
    rw [opts_parse, hlocal, try_parse_global, hglobal,
      try_parse_global_first_claim h1 h2]
    rcases hfill : fstar.fill_slot pos arg rem with e | ⟨f', r⟩ <;>
      simp [Except.map, hfill]
  · intro frame parents arg rem hlocal hglobal hps
    rw [opts_parse, hlocal, try_parse_global, hglobal,
      try_parse_global_none hps]
    rfl
  · simp +decide [parse_cmd, parse_struct_args, globalRootCmd, globalRootFrame,
      Option.map, Bool.and, List.getD, Option.getD,
      childCmd, no_positionals, Cmd.frame, Cmd.pstate, Cmd.subcommands,
      SubCmd.name, SubCmd.cmd, starts_with_dash, opts_parse,
      OptsFrame.find_local, OptsFrame.find_global, try_parse_global,
      OptsFrame.fill_slot, VSlot.fill_slot, ValueSlotOne.fill_slot,
      id_parse_func, Except.map, find_subcommand, Positionals.parse,
      List.find?, List.set]
  · simp +decide [parse_cmd, parse_struct_args, localRootCmd, localRootFrame,
      Option.map, Bool.and, List.getD, Option.getD,
      childCmd, no_positionals, Cmd.frame, Cmd.pstate, Cmd.subcommands,
      SubCmd.name, SubCmd.cmd, starts_with_dash, opts_parse,
      OptsFrame.find_local, OptsFrame.find_global, try_parse_global,
      OptsFrame.fill_slot, VSlot.fill_slot, ValueSlotOne.fill_slot,
      id_parse_func, Except.map, find_subcommand, Positionals.parse,
      List.find?, List.set]

theorem global_option_resolution_witness :
    (opts_parse globalRootFrame [] "--gopt" ["7"]
      = .ok ({ arg_to_slot := [("--gopt", 0)]
               slots := [.value (.one { slot := some "7", parse_func := id_parse_func })]
               slots_global := [true] }, [], [])) ∧
    (opts_parse { arg_to_slot := [], slots := [], slots_global := [] }
        [globalRootFrame] "--gopt" ["7"]
      = .ok ({ arg_to_slot := [], slots := [], slots_global := [] },
          [{ arg_to_slot := [("--gopt", 0)]
             slots := [.value (.one { slot := some "7", parse_func := id_parse_func })]
             slots_global := [true] }], [])) ∧
    (opts_parse { arg_to_slot := [], slots := [], slots_global := [] }
        [localRootFrame] "--lopt" ["7"]
      = .error (.UnknownArgument "--lopt")) := by
  refine ⟨?_, ?_, ?_⟩
  · rw [global_option_resolution.1 globalRootFrame [] "--gopt" ["7"] "--gopt" 0
      (by decide)]
    simp +decide [globalRootFrame, OptsFrame.fill_slot, VSlot.fill_slot,
      ValueSlotOne.fill_slot, id_parse_func, Except.map, List.set]
  · rw [show [globalRootFrame] = ([] : List OptsFrame) ++ globalRootFrame :: [] from rfl,
      global_option_resolution.2.1 { arg_to_slot := [], slots := [], slots_global := [] }
        [] globalRootFrame [] "--gopt" ["7"] "--gopt" 0 (by decide) (by decide)
        (by intro g hg; cases hg) (by decide)]
    simp +decide [globalRootFrame, OptsFrame.fill_slot, VSlot.fill_slot,
      ValueSlotOne.fill_slot, id_parse_func, Except.map, List.set]
  · exact global_option_resolution.2.2.1
      { arg_to_slot := [], slots := [], slots_global := [] } [localRootFrame]
      "--lopt" ["7"] (by decide) (by decide)
      (by intro g hg
          simp only [List.mem_singleton] at hg
          subst hg
          decide)

/-- A schema that declares **both** a greedy repeating positional and a
subcommand set. -/
def greedySubCmd : Cmd :=
  .mk { arg_to_slot := [], slots := [], slots_global := [] } (greedyPstateWith [])
    [.mk "sub" childCmd]

/-- **C3** counterexample to the claim as stated: against a schema declaring
both a greedy positional and a subcommand `sub`, after the greedy positional
has captured `"x"` the next token `"sub"` is *not* appended to the
collection — subcommand dispatch is still checked first and consumes it, so
the greedy slot ends as `["x"]`, not `["x", "sub"]`. -/
theorem greedy_subcommand_counterexample :
    parse_cmd greedySubCmd ["prog"] ["x", "sub"] []
      = .ok (.mk [] (greedyPstateWith ["x"])
          (some ("sub", .mk [] no_positionals none)), []) ∧
    (CmdResult.mk [] (greedyPstateWith ["x"])
        (some ("sub", .mk [] no_positionals none))).pstate
      ≠ greedyPstateWith ["x", "sub"] := by
  constructor
  · simp +decide [parse_cmd, parse_struct_args, greedySubCmd, childCmd,
      greedyPstateWith, no_positionals, Cmd.frame, Cmd.pstate, Cmd.subcommands,
      SubCmd.name, SubCmd.cmd, starts_with_dash, find_subcommand,
      Positionals.parse, VSlot.fill_slot, ValueSlotMany.fill_slot,
      id_parse_func, Except.map, List.set]
  · intro h
    simp only [CmdResult.pstate, greedyPstateWith, Positionals.mk.injEq,
      List.cons.injEq, Positional.mk.injEq, VSlot.many.injEq,
      ValueSlotMany.mk.injEq, and_true, true_and] at h
    exact absurd h (by decide)

def NEWLINE_INDENT : String := "\n    "

/-- `MissingRequirements::err_on_any` from `src/error.rs`: success iff no
missing option, subcommand group or positional was recorded, otherwise a
`MissingRequirements` error carrying the report itself. -/
def MissingRequirementsData.err_on_any (r : MissingRequirementsData) :
    Except Error Unit :=
  if r.options.isEmpty && r.subcommands.isNone && r.positional_args.isEmpty then
    .ok ()
  else
    .error (.MissingRequirements r)

/-- `impl fmt::Display for MissingRequirements`: the sequential writes into
the formatter, modelled as appends to a string buffer. -/
def MissingRequirementsData.display (r : MissingRequirementsData) : String :=
  let buf := ""
  let buf :=
    if !r.positional_args.isEmpty then
      r.positional_args.foldl (fun acc arg => acc ++ NEWLINE_INDENT ++ arg)
        (buf ++ "Required positional arguments not provided:")
    else buf
  let buf :=
    if !r.options.isEmpty then
      r.options.foldl (fun acc o => acc ++ NEWLINE_INDENT ++ o)
        ((if !r.positional_args.isEmpty then buf ++ "\n" else buf)
          ++ "Required options not provided:")
    else buf
  let buf :=
    match r.subcommands with
    | some subs =>
        subs.foldl (fun acc sc => acc ++ NEWLINE_INDENT ++ sc)
          ((if !r.options.isEmpty then buf ++ "\n" else buf)
            ++ "One of the following subcommands must be present:"
            ++ NEWLINE_INDENT ++ "help")
    | none => buf
  buf ++ "\n"

/-- The rendering as the spec describes it (the refinement comparand):
missing positionals first, then missing options, then — if present — the
subcommand group under its heading with the literal entry `help` always
offered alongside the real subcommand names, one indented entry per missing
item, with a newline separating a section from a preceding non-empty
options/positionals section. -/
def mr_rendering_spec (r : MissingRequirementsData) : String :=
  (if r.positional_args.isEmpty then "" else
    "Required positional arguments not provided:"
      ++ String.join (r.positional_args.map (fun a => NEWLINE_INDENT ++ a))) ++
  ((if r.options.isEmpty then "" else
    (if r.positional_args.isEmpty then "" else "\n")
      ++ "Required options not provided:"
      ++ String.join (r.options.map (fun a => NEWLINE_INDENT ++ a))) ++
  ((match r.subcommands with
    | none => ""
    | some subs =>
        (if r.options.isEmpty then "" else "\n")
          ++ "One of the following subcommands must be present:"
          ++ String.join (("help" :: subs).map (fun a => NEWLINE_INDENT ++ a))) ++
  "\n"))

theorem string_foldl_append (l : List String) (a : String) :
    l.foldl (fun r s => r ++ s) a = a ++ l.foldl (fun r s => r ++ s) "" := by
  induction l generalizing a with
  | nil => simp
  | cons x xs ih =>
      simp only [List.foldl_cons]
      rw [ih (a ++ x), ih (("" : String) ++ x)]
      simp [String.append_assoc]

theorem foldl_append_eq_join (l : List String) (f : String → String) (a : String) :
    l.foldl (fun acc x => acc ++ f x) a = a ++ String.join (l.map f) := by
  induction l generalizing a with
  | nil => simp [String.join]
  | cons x xs ih =>
      simp only [List.foldl_cons, List.map_cons, ih]
      simp only [String.join, List.foldl_cons]
      rw [string_foldl_append (xs.map f) (("" : String) ++ f x)]
      simp [String.append_assoc]

theorem string_join_nil : String.join ([] : List String) = "" := rfl

theorem string_join_cons (s : String) (l : List String) :
    String.join (s :: l) = s ++ String.join l := by
  simp only [String.join, List.foldl_cons]
  rw [string_foldl_append]
  simp

theorem hfold_indent (l : List String) (a : String) :
    l.foldl (fun acc x => acc ++ NEWLINE_INDENT ++ x) a
      = a ++ String.join (l.map (fun x => NEWLINE_INDENT ++ x)) := by
  have := foldl_append_eq_join l (fun x => NEWLINE_INDENT ++ x) a
  rw [← this]
  congr 1
  funext acc x
  rw [String.append_assoc]

/-- **C7**: `err_on_any` succeeds exactly when no missing option, no missing
subcommand group and no missing positional was recorded, and otherwise
returns `MissingRequirements`; the error's rendering lists missing
positionals first, then missing options, then the subcommand group under its
"one of the following subcommands must be present" heading, always offering
the literal entry `help` alongside the real subcommand names, with one
indented entry per missing item. -/
theorem missing_requirements_report :
    (∀ r : MissingRequirementsData,
      r.err_on_any = .ok () ↔
        (r.options = [] ∧ r.subcommands = none ∧ r.positional_args = [])) ∧
    (∀ r : MissingRequirementsData,
      ¬(r.options = [] ∧ r.subcommands = none ∧ r.positional_args = []) →
      r.err_on_any = .error (.MissingRequirements r)) ∧
    (∀ r : MissingRequirementsData, r.display = mr_rendering_spec r) := by
  refine ⟨?_, ?_, ?_⟩
  · intro r
    rw [MissingRequirementsData.err_on_any]
    constructor
    · intro h
      by_contra hc
      rw [if_neg (by
        simp only [Bool.and_eq_true, List.isEmpty_iff, Option.isNone_iff_eq_none]
        intro hh
        exact hc ⟨hh.1.1, hh.1.2, hh.2⟩)] at h
      cases h
    · intro ⟨h1, h2, h3⟩
      rw [if_pos (by simp [h1, h2, h3])]
  · intro r hc
    rw [MissingRequirementsData.err_on_any, if_neg (by
      simp only [Bool.and_eq_true, List.isEmpty_iff, Option.isNone_iff_eq_none]
      intro hh
      exact hc ⟨hh.1.1, hh.1.2, hh.2⟩)]
  · intro r
    obtain ⟨opts, subs, posl⟩ := r
    simp only [MissingRequirementsData.display, mr_rendering_spec,
      MissingRequirementsData.options, MissingRequirementsData.subcommands,
      MissingRequirementsData.positional_args]
    rcases subs with _ | subs <;>
      rcases posl with _ | ⟨p0, posl⟩ <;>
      rcases opts with _ | ⟨o0, opts⟩ <;>
        simp only [List.isEmpty_nil, List.isEmpty_cons, Bool.not_true,
          Bool.not_false, if_true, if_false, Bool.false_eq_true, reduceIte,
          List.map_cons, List.map_nil, string_join_cons, string_join_nil,
          hfold_indent, List.foldl_nil] <;>
      simp [String.append_assoc]

theorem missing_requirements_report_witness :
    MissingRequirementsData.err_on_any (.mk ["--foo"] none []) =
      .error (.MissingRequirements (.mk ["--foo"] none [])) :=
  missing_requirements_report.2.1 (.mk ["--foo"] none []) (by decide)

/-!
## Help formatter (`src/help.rs`)

Strings are modelled as `List Char` (`Str`), matching the formatter's
char-oriented measurements (`chars_count` counts chars; byte lengths agree on
the ASCII metadata the claims concern).  The output buffer `HelpWriter.buf`
is modelled as the list of its newline-terminated lines: every write into the
Rust buffer is either `write_line` (a line plus `"\n"`) or a bare `"\n"`
(`SECTION_SEPARATOR`, `blank_lines_spacing`), so the buffer is at all times a
concatenation of `line ++ "\n"` chunks; `render` recovers the string. -/

abbrev Str := List Char

def str (s : String) : Str := s.toList

def INDENT : Str := str "  "

/-- `OptionArgInfo` (help metadata of one option or positional). -/
structure OptionArgInfo : Type where
  usage : Str
  description : Str × Str
  global : Bool

/-- `CommandInfo`. -/
structure CommandInfo : Type where
  name : Str
  description : Str

/-- `CommandsHelpInfo`; the `dynamic_subcommands` runtime callback is
modelled by the list it returns. -/
structure CommandsHelpInfo : Type where
  usage : Str
  subcommands : List CommandInfo
  dynamic_subcommands : List CommandInfo

/-- `HelpInfo`. -/
structure HelpInfo : Type where
  description : Str
  positionals : List OptionArgInfo
  options : List OptionArgInfo
  commands : Option CommandsHelpInfo
  footer : Str

/-- The synthetic `-h, --help` entry (`HELP_OPT`). -/
def HELP_OPT : OptionArgInfo :=
  { usage := []
    description := (str "-h, --help", str "Show this help message and exit.")
    global := true }

/-- `HelpStyle`; `description_indent: i8` becomes `Int`, the
`wrap_width_range: Range<usize>` its two endpoints. -/
structure HelpStyle : Type where
  blank_lines_spacing : Nat
  description_indent : Int
  short_usage : Bool
  wrap_width_start : Nat
  wrap_width_end : Nat

def HelpStyle.default : HelpStyle :=
  { blank_lines_spacing := 0
    description_indent := -40
    short_usage := false
    wrap_width_start := 80
    wrap_width_end := 120 }

/-- `HelpStyle::wrap_width`; `term_size::term_cols()` (terminal-width
detection, out of the model) is passed in as `termCols`. -/
def HelpStyle.wrap_width (style : HelpStyle) (termCols : Option Nat) : Nat :=
  if style.wrap_width_start == style.wrap_width_end then
    style.wrap_width_start
  else
    (termCols.map fun cols =>
      max style.wrap_width_start (min cols style.wrap_width_end)).getD
      style.wrap_width_start

/-- `chars_count`. -/
def chars_count (s : Str) : Nat := s.length

/-- `pad_string`: pads with spaces up to `width`; the `Bool` is the source's
return value (whether padding happened). -/
def pad_string (s : Str) (width : Nat) : Str × Bool :=
  if chars_count s < width then
    (s ++ List.replicate (width - chars_count s) ' ', true)
  else
    (s, false)

/-- The `HelpWriter` fields other than the buffer (`blank_lines_spacing` is
kept as the count of blank lines rather than the pre-rendered string). -/
structure HW : Type where
  blank_lines_spacing : Nat
  command_name : Str
  description_indent : Nat
  wrap_width : Nat

/-- The inner word loop of `write_wrapped`, fused with the outer loop's
flush-and-reseed: once `line` holds at least one word, each following word is
appended (space-separated) while `chars_count line + chars_count word + 1`
stays within `wrap_width`; otherwise the line is flushed and the next line
starts as the padding (when `padding > 0`) followed by that word. -/
def wwFill (wrap_width padding : Nat) (buf : List Str) (line : Str) :
    List Str → List Str
  | [] => buf ++ [line]
  | w :: ws =>
      if chars_count line + chars_count w + 1 > wrap_width then
        wwFill wrap_width padding (buf ++ [line])
          ((if 0 < padding then (pad_string [] padding).1 else []) ++ w) ws
      else
        wwFill wrap_width padding buf ((line ++ [' ']) ++ w) ws

/-- `HelpWriter::write_wrapped`: the first word is glued onto the incoming
`line` (padded first when the line is empty and `padding > 0`); then the word
loop runs; the final line is always flushed. -/
def write_wrapped (wrap_width padding : Nat) (buf : List Str) (line : Str)
    (words : List Str) : List Str :=
  match words with
  | [] => buf ++ [line]
  | w :: ws =>
      let line := if 0 < padding && line.isEmpty then (pad_string line padding).1 else line
      wwFill wrap_width padding buf (line ++ w) ws

/-- `str::replace` (used for the `{command_name}` placeholder): replaces
non-overlapping occurrences of `pat` left to right. -/
def replace_sub (pat rep : Str) : Str → Str
  | [] => []
  | c :: rest =>
      if h : pat ≠ [] ∧ pat.isPrefixOf (c :: rest) then
        rep ++ replace_sub pat rep (rest.drop (pat.length - 1))
      else
        c :: replace_sub pat rep rest
termination_by s => s.length
decreasing_by
  · simp only [List.length_drop, List.length_cons]
    omega
  · simp only [List.length_cons]
    omega

/-- `HelpWriter::write_usage`. -/
def write_usage (w : HW) (buf : List Str) (title : Str) (usage : List Str) :
    List Str :=
  let line := title ++ [' ']
  let words := (w.command_name :: usage).filter (fun s => !s.isEmpty)
  write_wrapped w.wrap_width (title.length + w.command_name.length + 2) buf
    line words

/-- `HelpWriter::write_paragraphs`: a section separator, then each
`'\n'`-separated line of the text (with `{command_name}` substituted)
word-wrapped at padding 0. -/
def write_paragraphs (w : HW) (buf : List Str) (text : Str) : List Str :=
  let text := replace_sub (str "{command_name}") w.command_name text
  (text.splitOn '\n').foldl
    (fun b line => write_wrapped w.wrap_width 0 b [] (line.splitOn ' '))
    (buf ++ [[]])

/-- `HelpWriter::write_description`. -/
def write_description (w : HW) (buf : List Str) (desc : Str × Str) :
    List Str :=
  let line := INDENT ++ desc.1
  if desc.2.isEmpty then
    buf ++ [line]
  else
    let (line, padded) := pad_string line w.description_indent
    let buf := if padded then buf else buf ++ [line]
    let line := if padded then line else []
    write_wrapped w.wrap_width w.description_indent buf line (desc.2.splitOn ' ')

/-- `HelpWriter::write_section`: entries with an empty left column are
filtered out; the separator and the title are written before the first
surviving entry, `blank_lines_spacing` blank lines before each further
one. -/
def write_section (w : HW) (buf : List Str) (title : Str)
    (descs : List (Str × Str)) : List Str :=
  match descs.filter (fun d => !d.1.isEmpty) with
  | [] => buf
  | d :: rest =>
      rest.foldl
        (fun b d' =>
          write_description w (b ++ List.replicate w.blank_lines_spacing []) d')
        (write_description w (buf ++ [[], title]) d)

/-- `Help::generate` (lines form).  `command_name` is the `Help` value's
joined command-name path, `global_options` the accumulated global options of
the enclosing levels; `termCols` stands in for the terminal width probe.
The `f32` computation of `max_indent` is modelled by exact rational
arithmetic with truncation (`wrap_width * percent / 100` in `Nat`). -/
def help_options (info : HelpInfo) (global_options : List OptionArgInfo) :
    List OptionArgInfo :=
  global_options ++ info.options ++ [HELP_OPT]

def help_subcommands (info : HelpInfo) : List CommandInfo :=
  match info.commands with
  | some cmds => cmds.subcommands ++ cmds.dynamic_subcommands
  | none => []

/-- The `description_indent` computation of `Help::generate`.  The `f32`
computation of `max_indent` is modelled by exact rational arithmetic with
truncation (`wrap_width * percent / 100` in `Nat`). -/
def help_indent (info : HelpInfo) (global_options : List OptionArgInfo)
    (style : HelpStyle) (termCols : Option Nat) : Nat :=
  let wrap_width := style.wrap_width termCols
  if style.description_indent < 0 then
    let percent := style.description_indent.natAbs
    let max_indent := wrap_width * percent / 100
    let left_column :=
      (help_options info global_options ++ info.positionals).map
        (fun r => r.description.1)
      ++ (help_subcommands info).map (fun r => r.name)
    ((left_column.map fun s => INDENT.length + chars_count s + 2).filter
        (fun width => width ≤ max_indent)).max?.getD 8
      |>.min wrap_width
  else
    min style.description_indent.toNat wrap_width

def subcommands_usage_of (info : HelpInfo) : List Str :=
  match info.commands with
  | some cmds => cmds.usage.splitOn ' '
  | none => []

def generate (info : HelpInfo) (command_name : Str)
    (global_options : List OptionArgInfo) (style : HelpStyle)
    (termCols : Option Nat) : List Str :=
  let options := help_options info global_options
  let options_and_args := options ++ info.positionals
  let subcommands := help_subcommands info
  let wrap_width := style.wrap_width termCols
  let description_indent := help_indent info global_options style termCols
  let w : HW :=
    { blank_lines_spacing := style.blank_lines_spacing
      command_name := command_name
      description_indent := description_indent
      wrap_width := wrap_width }
  let subcommands_usage := subcommands_usage_of info
  let buf : List Str := []
  let buf :=
    if style.short_usage then
      write_usage w buf (str "Usage:")
        (str "[options]" :: (info.positionals.map (fun r => r.usage)
          ++ subcommands_usage))
    else
      write_usage w buf (str "Usage:")
        (options_and_args.map (fun r => r.usage) ++ subcommands_usage)
  let buf := write_paragraphs w buf info.description
  let buf :=
    if !info.positionals.isEmpty then
      write_section w buf (str "Arguments:")
        (info.positionals.map (fun r => r.description))
    else buf
  let buf := write_section w buf (str "Options:")
    (options.map (fun r => r.description))
  let buf :=
    if !subcommands.isEmpty then
      write_section w buf (str "Commands:")
        (subcommands.map (fun r => (r.name, r.description)))
    else buf
  let buf :=
    if !info.footer.isEmpty then write_paragraphs w buf info.footer else buf
  buf

/-- `Help::generate`'s actual string: the newline-terminated lines joined. -/
def render (lines : List Str) : Str := (lines.map (fun l => l ++ ['\n'])).flatten

def generate_string (info : HelpInfo) (command_name : Str)
    (global_options : List OptionArgInfo) (style : HelpStyle)
    (termCols : Option Nat) : Str :=
  render (generate info command_name global_options style termCols)

/-- A line that begins with `Usage:`. -/
def usageLine (l : Str) : Bool := (str "Usage:").isPrefixOf l

/-- A minimal schema whose description itself contains a line beginning with
`Usage:`. -/
def usageInDescInfo : HelpInfo :=
  { description := str "Usage: x"
    positionals := []
    options := []
    commands := none
    footer := [] }

/-- **C8** counterexample to the claim as stated: for the schema whose
description text is `"Usage: x"`, the generated help contains **two** lines
beginning with `Usage:` (the real usage line and the description), so
"exactly one Usage: line for every schema" fails. -/
theorem help_usage_line_counterexample :
    (generate usageInDescInfo (str "prog") [] HelpStyle.default none).countP
      (fun l => usageLine l) = 2 := by
  simp +decide [generate, usageInDescInfo, HelpStyle.default, usageLine,
    HelpStyle.wrap_width, write_usage, write_paragraphs, write_section,
    write_description, write_wrapped, wwFill, replace_sub, pad_string,
    chars_count, HELP_OPT, INDENT, str, List.splitOn, List.splitOnP,
    List.splitOnP.go, List.isPrefixOf, List.filter, List.countP, List.countP.go]

/-- A tail produced by the word loop: empty or starting with the separating
space. -/
def space_headed (t : Str) : Prop := t = [] ∨ ∃ t', t = ' ' :: t'

/-- All characters of `t` are spaces or come from one of the words `ws0`. -/
def chars_from (ws0 : List Str) (t : Str) : Prop :=
  ∀ ch ∈ t, ch = ' ' ∨ ∃ w ∈ ws0, ch ∈ w

theorem padIf_eq (p : Nat) :
    (if 0 < p then (pad_string [] p).1 else []) = List.replicate p ' ' := by
  rcases Nat.eq_zero_or_pos p with h | h
  · subst h; rfl
  · rw [if_pos h]
    simp [pad_string, chars_count, h]

theorem wwFill_append (wrap pad : Nat) :
    ∀ (ws : List Str) (buf : List Str) (line : Str),
      wwFill wrap pad buf line ws = buf ++ wwFill wrap pad [] line ws := by
  intro ws
  induction ws with
  | nil => intro buf line; simp [wwFill]
  | cons w rest ih =>
      intro buf line
      rw [wwFill, wwFill]
      split
      · rw [ih (buf ++ [line]), ih ([] ++ [line])]
        simp
      · rw [ih buf]

theorem wwFill_shape (wrap pad : Nat) (ws0 : List Str) :
    ∀ (ws : List Str) (buf : List Str) (line : Str),
      (∀ w ∈ ws, w ∈ ws0) →
      ∃ (first : Str) (rest : List Str),
        wwFill wrap pad buf line ws = buf ++ first :: rest ∧
        (∃ tail, first = line ++ tail ∧ space_headed tail ∧ chars_from ws0 tail) ∧
        (∀ l ∈ rest, ∃ w ∈ ws0, ∃ tail,
          l = List.replicate pad ' ' ++ (w ++ tail) ∧ space_headed tail ∧
          chars_from ws0 tail) := by
  intro ws
  induction ws with
  | nil =>
      intro buf line _
      exact ⟨line, [], by simp [wwFill], ⟨[], by simp, Or.inl rfl, by simp [chars_from]⟩,
        by simp⟩
  | cons w rest ih =>
      intro buf line hsub
      rw [wwFill]
      split
      · obtain ⟨first', rest', heq, ⟨tail', ht1, ht2, ht3⟩, hrest'⟩ :=
          ih (buf ++ [line]) ((if 0 < pad then (pad_string [] pad).1 else []) ++ w)
            (fun x hx => hsub x (by simp [hx]))
        refine ⟨line, first' :: rest', by simp [heq], ⟨[], by simp, Or.inl rfl,
          by simp [chars_from]⟩, ?_⟩
        intro l hl
        rcases List.mem_cons.mp hl with rfl | hl
        · refine ⟨w, hsub w (by simp), tail', ?_, ht2, ht3⟩
          rw [ht1, padIf_eq]
          simp [List.append_assoc]
        · exact hrest' l hl
      · obtain ⟨first', rest', heq, ⟨tail', ht1, ht2, ht3⟩, hrest'⟩ :=
          ih buf ((line ++ [' ']) ++ w) (fun x hx => hsub x (by simp [hx]))
        refine ⟨first', rest', heq, ?_, hrest'⟩
        refine ⟨[' '] ++ w ++ tail', ?_, Or.inr ⟨w ++ tail', by simp⟩, ?_⟩
        · rw [ht1]; simp [List.append_assoc]
        · intro ch hch
          simp only [List.append_assoc, List.mem_append, List.mem_singleton] at hch
          rcases hch with rfl | hch | hch
          · exact Or.inl rfl
          · exact Or.inr ⟨w, hsub w (by simp), hch⟩
          · exact ht3 ch hch

theorem wwFill_last_ne (wrap pad : Nat) :
    ∀ (ws : List Str) (buf : List Str) (line : Str),
      (ws ≠ [] → 0 < pad ∨ ws.getLast? ≠ some []) →
      (ws = [] → line ≠ []) →
      ∃ init last, wwFill wrap pad buf line ws = init ++ [last] ∧ last ≠ [] := by
  intro ws
  induction ws with
  | nil =>
      intro buf line _ hl
      exact ⟨buf, line, by simp [wwFill], hl rfl⟩
  | cons w rest ih =>
      intro buf line hw _
      rcases List.eq_nil_or_concat rest with rfl | ⟨l0, a0, rfl⟩
      · rw [wwFill]
        split
        · refine ⟨buf ++ [line], (if 0 < pad then (pad_string [] pad).1 else []) ++ w,
            by simp [wwFill], ?_⟩
          rw [padIf_eq]
          rcases hw (by simp) with hp | hlast
          · simp only [ne_eq, List.append_eq_nil, List.replicate_eq_nil_iff]
            rintro ⟨h1, -⟩
            omega
          · simp only [List.getLast?_singleton, ne_eq, Option.some.injEq] at hlast
            simp only [ne_eq, List.append_eq_nil]
            rintro ⟨-, h2⟩
            exact hlast h2
        · exact ⟨buf, (line ++ [' ']) ++ w, by simp [wwFill], by simp⟩
      · have hrest : (l0.concat a0 : List Str) ≠ [] := by simp
        have hlast' : (l0.concat a0 : List Str).getLast? ≠ some [] → True := fun _ => trivial
        have hnext : l0.concat a0 ≠ [] → 0 < pad ∨ (l0.concat a0 : List Str).getLast? ≠ some [] := by
          intro _
          rcases hw (by simp) with hp | hlast
          · exact Or.inl hp
          · refine Or.inr ?_
            rw [List.concat_eq_append] at hlast ⊢
            rw [show w :: (l0 ++ [a0]) = (w :: l0) ++ [a0] from rfl,
              List.getLast?_concat] at hlast
            rw [List.getLast?_concat]
            exact hlast
        rw [wwFill]
        split
        · exact ih (buf ++ [line]) _ hnext (fun h => absurd h hrest)
        · exact ih buf _ hnext (fun h => absurd h hrest)

theorem usageLine_space_cons (l : Str) : usageLine (' ' :: l) = false := rfl

theorem usageLine_nil : usageLine [] = false := rfl

theorem usageLine_replicate_append {pad : Nat} (hpad : 0 < pad) (t : Str) :
    usageLine (List.replicate pad ' ' ++ t) = false := by
  cases pad with
  | zero => omega
  | succ n => exact usageLine_space_cons _

theorem usageLine_self_append (t : Str) : usageLine (str "Usage:" ++ t) = true := by
  rw [usageLine, List.isPrefixOf_iff_prefix]
  exact List.prefix_append _ _

theorem usageLine_append_space {w t : Str} (hw : usageLine w = false)
    (ht : space_headed t) : usageLine (w ++ t) = false := by
  rcases ht with rfl | ⟨t', rfl⟩
  · simpa using hw
  · by_contra hc
    have hpre : str "Usage:" <+: w ++ ' ' :: t' := by
      rw [← List.isPrefixOf_iff_prefix]
      revert hc
      rw [usageLine]
      cases ((str "Usage:").isPrefixOf (w ++ ' ' :: t')) <;> simp
    rcases Nat.lt_or_ge w.length 6 with hlt | hge
    · obtain ⟨r, hr⟩ := hpre
      have h1 : (str "Usage:" ++ r)[w.length]? = some ' ' := by
        rw [hr, List.getElem?_append_right (Nat.le_refl w.length)]
        simp
      rw [List.getElem?_append] at h1
      rw [if_pos (by simpa [str] using hlt)] at h1
      set n := w.length with hn
      have hn6 : n < 6 := hlt
      interval_cases n <;> simp [str] at h1
    · have hw' : str "Usage:" <+: w :=
        List.prefix_of_prefix_length_le hpre (List.prefix_append w (' ' :: t'))
          (by simpa [str] using hge)
      rw [usageLine] at hw
      exact absurd (List.isPrefixOf_iff_prefix.mpr hw') (by simp [hw])

theorem mem_splitOnP_false {p : Char → Bool} :
    ∀ {l piece : Str}, piece ∈ l.splitOnP p → ∀ x ∈ piece, p x = false := by
  intro l
  induction l with
  | nil =>
      intro piece hp x hx
      simp only [List.splitOnP_nil, List.mem_singleton] at hp
      subst hp
      cases hx
  | cons a l ih =>
      intro piece hp x hx
      rw [List.splitOnP_cons] at hp
      split at hp
      · rcases List.mem_cons.mp hp with rfl | hp
        · cases hx
        · exact ih hp x hx
      · obtain ⟨h0, t0, heq⟩ := List.exists_cons_of_ne_nil (List.splitOnP_ne_nil p l)
        rw [heq] at hp
        simp only [List.modifyHead, List.mem_cons] at hp
        rcases hp with rfl | hp
        · rcases List.mem_cons.mp hx with rfl | hx
          · rename_i hfalse
            cases hpa : p x
            · rfl
            · exact absurd hpa (by simpa using hfalse)
          · exact ih (heq ▸ List.mem_cons_self h0 t0) x hx
        · exact ih (heq ▸ List.mem_cons.mpr (Or.inr hp)) x hx

theorem mem_splitOnP_mem {p : Char → Bool} :
    ∀ {l piece : Str}, piece ∈ l.splitOnP p → ∀ x ∈ piece, x ∈ l := by
  intro l
  induction l with
  | nil =>
      intro piece hp x hx
      simp only [List.splitOnP_nil, List.mem_singleton] at hp
      subst hp
      cases hx
  | cons a l ih =>
      intro piece hp x hx
      rw [List.splitOnP_cons] at hp
      split at hp
      · rcases List.mem_cons.mp hp with rfl | hp
        · cases hx
        · exact List.mem_cons.mpr (Or.inr (ih hp x hx))
      · obtain ⟨h0, t0, heq⟩ := List.exists_cons_of_ne_nil (List.splitOnP_ne_nil p l)
        rw [heq] at hp
        simp only [List.modifyHead, List.mem_cons] at hp
        rcases hp with rfl | hp
        · rcases List.mem_cons.mp hx with rfl | hx
          · exact List.mem_cons_self _ _
          · exact List.mem_cons.mpr
              (Or.inr (ih (heq ▸ List.mem_cons_self h0 t0) x hx))
        · exact List.mem_cons.mpr
            (Or.inr (ih (heq ▸ List.mem_cons.mpr (Or.inr hp)) x hx))

theorem mem_splitOn_not_mem {c : Char} {l piece : Str}
    (h : piece ∈ l.splitOn c) : c ∉ piece := by
  intro hc
  have := mem_splitOnP_false h c hc
  simp at this

theorem mem_splitOn_mem {c : Char} {l piece : Str} (h : piece ∈ l.splitOn c) :
    ∀ x ∈ piece, x ∈ l :=
  mem_splitOnP_mem h

theorem render_append (a b : List Str) : render (a ++ b) = render a ++ render b := by
  simp [render]

theorem render_splitOn {lines : List Str} (h : ∀ l ∈ lines, '\n' ∉ l) :
    (render lines).splitOn '\n' = lines ++ [[]] := by
  induction lines with
  | nil => simp [render, List.splitOn]
  | cons l rest ih =>
      have hl : ∀ x ∈ l, ¬((x == '\n') = true) := by
        intro x hx
        simp only [beq_iff_eq]
        exact fun hxx => (h l (List.mem_cons_self _ _)) (hxx ▸ hx)
      have hstep : render (l :: rest) = l ++ '\n' :: render rest := by
        simp [render]
      rw [List.splitOn, hstep,
        List.splitOnP_first (fun x => x == '\n') l hl '\n' (by simp) (render rest)]
      rw [show List.splitOnP (fun a => a == '\n') (render rest)
            = (render rest).splitOn '\n' from rfl]
      rw [ih (fun x hx => h x (List.mem_cons.mpr (Or.inr hx)))]
      rfl

/-- A line that is neither `Usage:`-prefixed nor contains a newline. -/
def good_line (l : Str) : Prop := usageLine l = false ∧ '\n' ∉ l

theorem good_line_nil : good_line [] := ⟨rfl, by simp⟩

theorem countP_usage_append (a b : List Str) (hb : ∀ l ∈ b, good_line l) :
    (a ++ b).countP (fun l => usageLine l)
      = a.countP (fun l => usageLine l) := by
  rw [List.countP_append]
  have hz : b.countP (fun l => usageLine l) = 0 :=
    List.countP_eq_zero.mpr (fun l hl => by simp [(hb l hl).1])
  omega

/-- Wrap-width characterization of the word loop: every produced line was in
the incoming buffer, is the unmodified seed line, fits in `wrap_width`, or is
the padding followed by one single (unbreakable) word. -/
theorem wwFill_wrap (wrap pad : Nat) :
    ∀ (ws buf : List Str) (line : Str), ∀ l ∈ wwFill wrap pad buf line ws,
      l ∈ buf ∨ l = line ∨ l.length ≤ wrap ∨
        ∃ w ∈ ws, l = List.replicate pad ' ' ++ w := by
  intro ws
  induction ws with
  | nil =>
      intro buf line l hl
      rw [wwFill] at hl
      rcases List.mem_append.mp hl with h | h
      · exact Or.inl h
      · exact Or.inr (Or.inl (List.mem_singleton.mp h))
  | cons w rest ih =>
      intro buf line l hl
      rw [wwFill] at hl
      split at hl
      · rcases ih (buf ++ [line])
            ((if 0 < pad then (pad_string [] pad).1 else []) ++ w) l hl with
          h | h | h | ⟨w', hw', h⟩
        · rcases List.mem_append.mp h with h | h
          · exact Or.inl h
          · exact Or.inr (Or.inl (List.mem_singleton.mp h))
        · exact Or.inr (Or.inr (Or.inr ⟨w, List.mem_cons_self _ _,
            by rw [h, padIf_eq]⟩))
        · exact Or.inr (Or.inr (Or.inl h))
        · exact Or.inr (Or.inr (Or.inr ⟨w', List.mem_cons.mpr (Or.inr hw'), h⟩))
      · rename_i hfit
        rcases ih buf ((line ++ [' ']) ++ w) l hl with h | h | h | ⟨w', hw', h⟩
        · exact Or.inl h
        · refine Or.inr (Or.inr (Or.inl ?_))
          rw [h]
          simp only [List.length_append, List.length_singleton]
          simp only [chars_count, gt_iff_lt, not_lt] at hfit
          omega
        · exact Or.inr (Or.inr (Or.inl h))
        · exact Or.inr (Or.inr (Or.inr ⟨w', List.mem_cons.mpr (Or.inr hw'), h⟩))

/-- Wrap-width characterization of `write_wrapped`: a line exceeding the wrap
width is the unmodified incoming line (an over-wide left column) or the
padding (or padded left column) followed by one single unbreakable word. -/
theorem write_wrapped_wrap (wrap pad : Nat) (buf : List Str) (line : Str)
    (words : List Str) :
    ∀ l ∈ write_wrapped wrap pad buf line words,
      l ∈ buf ∨ l = line ∨ l.length ≤ wrap ∨
      ∃ w ∈ words,
        l = (if 0 < pad && line.isEmpty then (pad_string line pad).1 else line)
            ++ w ∨
        l = List.replicate pad ' ' ++ w := by
  intro l hl
  cases words with
  | nil =>
      simp only [write_wrapped] at hl
      rcases List.mem_append.mp hl with h | h
      · exact Or.inl h
      · exact Or.inr (Or.inl (List.mem_singleton.mp h))
  | cons w ws =>
      simp only [write_wrapped] at hl
      rcases wwFill_wrap wrap pad ws buf _ l hl with h | h | h | ⟨w', hw', h⟩
      · exact Or.inl h
      · exact Or.inr (Or.inr (Or.inr ⟨w, List.mem_cons_self _ _, Or.inl h⟩))
      · exact Or.inr (Or.inr (Or.inl h))
      · exact Or.inr (Or.inr (Or.inr ⟨w', List.mem_cons.mpr (Or.inr hw'),
          Or.inr h⟩))

/-- Output shape of `write_wrapped`: the buffer, a first line (the seed, the
possibly-padded seed plus words), then continuation lines each of the form
padding + word + more words. -/
theorem write_wrapped_shape (wrap pad : Nat) (buf : List Str) (line : Str)
    (words : List Str) :
    ∃ first rest, write_wrapped wrap pad buf line words = buf ++ first :: rest ∧
      ((words = [] ∧ first = line) ∨
       (∃ w1 ∈ words, ∃ tail,
          first = (if 0 < pad && line.isEmpty then (pad_string line pad).1
              else line) ++ (w1 ++ tail) ∧
          space_headed tail ∧ chars_from words tail)) ∧
      (∀ l ∈ rest, ∃ w ∈ words, ∃ tail,
        l = List.replicate pad ' ' ++ (w ++ tail) ∧ space_headed tail ∧
        chars_from words tail) := by
  cases words with
  | nil =>
      exact ⟨line, [], by simp [write_wrapped], Or.inl ⟨rfl, rfl⟩, by simp⟩
  | cons w ws =>
      obtain ⟨first, rest, heq, ⟨tail, ht1, ht2, ht3⟩, hrest⟩ :=
        wwFill_shape wrap pad (w :: ws) ws buf
          ((if 0 < pad && line.isEmpty then (pad_string line pad).1 else line)
            ++ w)
          (fun x hx => List.mem_cons.mpr (Or.inr hx))
      refine ⟨first, rest, ?_, Or.inr ⟨w, List.mem_cons_self _ _, tail, ?_,
        ht2, ht3⟩, hrest⟩
      · simpa only [write_wrapped] using heq
      · rw [ht1, List.append_assoc]

theorem write_wrapped_last_ne (wrap pad : Nat) (buf : List Str) (line : Str)
    (words : List Str)
    (h0 : words = [] → line ≠ [])
    (h1 : words ≠ [] → 0 < pad ∨ words.getLast? ≠ some []) :
    ∃ init last, write_wrapped wrap pad buf line words = init ++ [last] ∧
      last ≠ [] := by
  cases words with
  | nil => exact ⟨buf, line, by simp [write_wrapped], h0 rfl⟩
  | cons w ws =>
      simp only [write_wrapped]
      apply wwFill_last_ne
      · intro hws
        rcases h1 (by simp) with hp | hl
        · exact Or.inl hp
        · obtain ⟨b, t, rfl⟩ := List.exists_cons_of_ne_nil hws
          rw [List.getLast?_cons_cons] at hl
          exact Or.inr hl
      · intro hws
        subst hws
        intro hc
        rw [List.append_eq_nil] at hc
        rcases h1 (by simp) with hp | hl
        · rcases hc with ⟨hc1, hc2⟩
          revert hc1
          split
          · rename_i hcond
            simp only [Bool.and_eq_true, decide_eq_true_eq,
              List.isEmpty_iff] at hcond
            rw [hcond.2]
            simp [pad_string, chars_count, hp, List.replicate_eq_nil_iff]
            omega
          · rename_i hcond
            simp only [Bool.and_eq_true, decide_eq_true_eq, List.isEmpty_iff,
              not_and] at hcond
            intro hlineEmpty
            exact hcond hp hlineEmpty
        · simp only [List.getLast?_singleton, ne_eq, Option.some.injEq] at hl
          exact hl hc.2

theorem append_last_ne {buf new init : List Str} {last : Str}
    (h1 : buf ++ new = init ++ [last]) (h2 : new ≠ []) :
    ∃ init2, new = init2 ++ [last] := by
  obtain ⟨l0, a0, rfl⟩ := (List.eq_nil_or_concat new).resolve_left h2
  rw [List.concat_eq_append, ← List.append_assoc] at h1
  have ha : a0 = last := by
    have h4 := congrArg List.getLast? h1
    rwa [List.getLast?_concat, List.getLast?_concat, Option.some.injEq] at h4
  exact ⟨l0, by rw [List.concat_eq_append, ha]⟩

/-- The line list ends with a nonempty line. -/
def ends_ne (ls : List Str) : Prop := ∃ init last, ls = init ++ [last] ∧ last ≠ []

theorem ends_ne_append_right {a b : List Str} (h : ends_ne b) :
    ends_ne (a ++ b) := by
  obtain ⟨init, last, rfl, hl⟩ := h
  exact ⟨a ++ init, last, by rw [List.append_assoc], hl⟩

theorem ends_ne_append {a b : List Str} (h1 : b = [] → ends_ne a)
    (h2 : b ≠ [] → ends_ne b) : ends_ne (a ++ b) := by
  by_cases hb : b = []
  · subst hb; simpa using h1 rfl
  · exact ends_ne_append_right (h2 hb)

theorem good_line_word_tail {ws0 : List Str} {src w1 tail : Str}
    (husage : usageLine w1 = false)
    (hnl : '\n' ∉ src) (hmem : ∀ w ∈ ws0, ∀ x ∈ w, x ∈ src)
    (hw1 : w1 ∈ ws0)
    (hsh : space_headed tail) (hcf : chars_from ws0 tail) :
    good_line (w1 ++ tail) := by
  constructor
  · exact usageLine_append_space husage hsh
  · intro hmem2
    rcases List.mem_append.mp hmem2 with h | h
    · exact hnl (hmem w1 hw1 _ h)
    · rcases hcf '\n' h with heq | ⟨w', hw', hch⟩
      · exact absurd heq (by decide)
      · exact hnl (hmem w' hw' _ hch)

theorem chars_from_no_newline {ws : List Str} {tail : Str}
    (hcf : chars_from ws tail) (hws : ∀ w ∈ ws, '\n' ∉ w) : '\n' ∉ tail := by
  intro h
  rcases hcf '\n' h with heq | ⟨w, hw, hch⟩
  · exact absurd heq (by decide)
  · exact hws w hw hch

/-- `write_usage` appends a block whose first line is `Usage:`-prefixed and
newline-free, and whose continuation lines are all good. -/
theorem write_usage_good (w : HW) (buf : List Str) (usage : List Str)
    (hcmd : '\n' ∉ w.command_name) (husage : ∀ u ∈ usage, '\n' ∉ u) :
    ∃ first rest,
      write_usage w buf (str "Usage:") usage = buf ++ first :: rest ∧
      usageLine first = true ∧ '\n' ∉ first ∧ ∀ l ∈ rest, good_line l := by
  rw [write_usage]
  obtain ⟨first, rest, heq, hfirst, hrest⟩ :=
    write_wrapped_shape w.wrap_width
      ((str "Usage:").length + w.command_name.length + 2) buf
      (str "Usage:" ++ [' '])
      ((w.command_name :: usage).filter (fun s => !s.isEmpty))
  have hwords : ∀ x ∈ (w.command_name :: usage).filter (fun s => !s.isEmpty),
      '\n' ∉ x := by
    intro x hx
    rcases List.mem_cons.mp (List.mem_of_mem_filter hx) with rfl | h
    · exact hcmd
    · exact husage x h
  have hpad : 0 < (str "Usage:").length + w.command_name.length + 2 := by
    omega
  have hcond : ¬((decide (0 < (str "Usage:").length + w.command_name.length
        + 2) && (str "Usage:" ++ [' ']).isEmpty) = true) := by
    simp
  refine ⟨first, rest, heq, ?_, ?_, ?_⟩
  · rcases hfirst with ⟨-, rfl⟩ | ⟨w1, hw1, tail, hf, hsh, hcf⟩
    · exact usageLine_self_append _
    · rw [hf, if_neg hcond, List.append_assoc]
      exact usageLine_self_append _
  · rcases hfirst with ⟨-, rfl⟩ | ⟨w1, hw1, tail, hf, hsh, hcf⟩
    · decide
    · rw [hf, if_neg hcond]
      intro hmem
      rcases List.mem_append.mp hmem with h | h
      · exact absurd h (by decide)
      · rcases List.mem_append.mp h with h | h
        · exact hwords w1 hw1 h
        · exact chars_from_no_newline hcf hwords h
  · intro l hl
    obtain ⟨w1, hw1, tail, hf, hsh, hcf⟩ := hrest l hl
    constructor
    · rw [hf]
      exact usageLine_replicate_append hpad _
    · rw [hf]
      intro hmem
      rcases List.mem_append.mp hmem with h | h
      · exact absurd (List.eq_of_mem_replicate h) (by decide)
      · rcases List.mem_append.mp h with h | h
        · exact hwords w1 hw1 h
        · exact chars_from_no_newline hcf hwords h

/-- The per-line fold of `write_paragraphs`: all produced lines are good when
no word of any text line is `Usage:`-prefixed. -/
theorem fold_wrapped_good (wrap : Nat) :
    ∀ (tlines : List Str) (buf : List Str),
      (∀ tl ∈ tlines, (∀ word ∈ tl.splitOn ' ', usageLine word = false) ∧
        '\n' ∉ tl) →
      ∃ new, tlines.foldl
          (fun b line => write_wrapped wrap 0 b [] (line.splitOn ' ')) buf
        = buf ++ new ∧ ∀ l ∈ new, good_line l := by
  intro tlines
  induction tlines with
  | nil =>
      intro buf _
      exact ⟨[], by simp, by simp⟩
  | cons tl rest ih =>
      intro buf h
      rw [List.foldl_cons]
      obtain ⟨first, r1, heq, hfirst, hrest⟩ :=
        write_wrapped_shape wrap 0 buf [] (tl.splitOn ' ')
      obtain ⟨new, heq2, hnew⟩ :=
        ih (buf ++ first :: r1)
          (fun x hx => h x (List.mem_cons.mpr (Or.inr hx)))
      have hsrc := h tl (List.mem_cons_self _ _)
      have hmemsrc : ∀ ww ∈ tl.splitOn ' ', ∀ x ∈ ww, x ∈ tl :=
        fun ww hw x hx => mem_splitOn_mem hw x hx
      have hgood1 : ∀ l ∈ first :: r1, good_line l := by
        intro l hl
        rcases List.mem_cons.mp hl with rfl | hl
        · rcases hfirst with ⟨-, rfl⟩ | ⟨w1, hw1, tail, hf, hsh, hcf⟩
          · exact good_line_nil
          · rw [hf]
            have hz : (decide (0 < 0) && (([] : Str).isEmpty)) = false := by
              decide
            rw [hz]
            simp only [Bool.false_eq_true, if_false, List.nil_append]
            exact good_line_word_tail (hsrc.1 w1 hw1) hsrc.2 hmemsrc hw1 hsh hcf
        · obtain ⟨w1, hw1, tail, hf, hsh, hcf⟩ := hrest l hl
          rw [hf]
          simp only [List.replicate_zero, List.nil_append]
          exact good_line_word_tail (hsrc.1 w1 hw1) hsrc.2 hmemsrc hw1 hsh hcf
      refine ⟨(first :: r1) ++ new, ?_, ?_⟩
      · rw [heq, heq2, List.append_assoc]
      · intro l hl
        rcases List.mem_append.mp hl with hl | hl
        · exact hgood1 l hl
        · exact hnew l hl

/-- `write_paragraphs` appends only good lines when no word of the
substituted text is `Usage:`-prefixed. -/
theorem write_paragraphs_good (w : HW) (buf : List Str) (text : Str)
    (h : ∀ tl ∈ (replace_sub (str "{command_name}") w.command_name
        text).splitOn '\n', ∀ word ∈ tl.splitOn ' ', usageLine word = false) :
    ∃ new, write_paragraphs w buf text = buf ++ new ∧
      ∀ l ∈ new, good_line l := by
  rw [write_paragraphs]
  obtain ⟨new, heq, hnew⟩ := fold_wrapped_good w.wrap_width
    ((replace_sub (str "{command_name}") w.command_name text).splitOn '\n')
    (buf ++ [[]])
    (fun tl htl => ⟨h tl htl, mem_splitOn_not_mem htl⟩)
  refine ⟨[] :: new, ?_, ?_⟩
  · rw [heq, List.append_assoc]
    rfl
  · intro l hl
    rcases List.mem_cons.mp hl with rfl | hl
    · exact good_line_nil
    · exact hnew l hl

theorem fold_wrapped_last_ne (wrap : Nat) :
    ∀ (tlines : List Str), tlines ≠ [] →
      (∀ lastl, tlines.getLast? = some lastl →
        (lastl.splitOn ' ').getLast? ≠ some []) →
      ∀ (buf : List Str),
      ∃ init last,
        tlines.foldl
          (fun b line => write_wrapped wrap 0 b [] (line.splitOn ' ')) buf
          = init ++ [last] ∧ last ≠ [] := by
  intro tlines
  induction tlines with
  | nil => intro h; cases h rfl
  | cons tl rest ih =>
      intro _ hlast buf
      cases rest with
      | nil =>
          rw [List.foldl_cons, List.foldl_nil]
          apply write_wrapped_last_ne
          · intro hx
            rw [List.splitOn] at hx
            exact absurd hx (List.splitOnP_ne_nil _ _)
          · intro _
            exact Or.inr (hlast tl rfl)
      | cons b t =>
          rw [List.foldl_cons]
          exact ih (by simp)
            (fun l hl => hlast l (by rw [List.getLast?_cons_cons]; exact hl)) _

/-- `write_paragraphs` ends with a nonempty line when the last word of the
last text line is nonempty. -/
theorem write_paragraphs_last_ne (w : HW) (buf : List Str) (text : Str)
    (h : ∀ lastl, ((replace_sub (str "{command_name}") w.command_name
        text).splitOn '\n').getLast? = some lastl →
      (lastl.splitOn ' ').getLast? ≠ some []) :
    ∃ init last, write_paragraphs w buf text = init ++ [last] ∧ last ≠ [] := by
  rw [write_paragraphs]
  apply fold_wrapped_last_ne w.wrap_width _ _ h
  rw [List.splitOn]
  exact List.splitOnP_ne_nil _ _

theorem newline_not_mem_INDENT : '\n' ∉ INDENT := by decide

theorem good_line_indent {x : Str} (hx : '\n' ∉ x) : good_line (INDENT ++ x) := by
  constructor
  · rw [show INDENT ++ x = ' ' :: ' ' :: x from rfl]
    exact usageLine_space_cons _
  · intro h
    rcases List.mem_append.mp h with h | h
    · exact newline_not_mem_INDENT h
    · exact hx h

/-- `write_description` appends a nonempty block of good lines, ending with a
nonempty line. -/
theorem write_description_good (w : HW) (buf : List Str) (desc : Str × Str)
    (hind : 0 < w.description_indent)
    (h1 : '\n' ∉ desc.1) (h2 : '\n' ∉ desc.2) :
    ∃ new, write_description w buf desc = buf ++ new ∧ new ≠ [] ∧
      (∀ l ∈ new, good_line l) ∧ ends_ne new := by
  have hwords : ∀ ww ∈ desc.2.splitOn ' ', '\n' ∉ ww :=
    fun ww hw hch => h2 (mem_splitOn_mem hw _ hch)
  have hwne : desc.2.splitOn ' ' ≠ [] := by
    rw [List.splitOn]
    exact List.splitOnP_ne_nil _ _
  simp only [write_description]
  split
  · refine ⟨[INDENT ++ desc.1], rfl, by simp, ?_, ?_⟩
    · intro l hl
      rw [List.mem_singleton.mp hl]
      exact good_line_indent h1
    · exact ⟨[], INDENT ++ desc.1, rfl, by simp [show INDENT ++ desc.1
        = ' ' :: ' ' :: desc.1 from rfl]⟩
  · rw [pad_string]
    by_cases hlt : chars_count (INDENT ++ desc.1) < w.description_indent
    · rw [if_pos hlt]
      obtain ⟨first, rest, heq, hfirst, hrest⟩ :=
        write_wrapped_shape w.wrap_width w.description_indent buf
          (INDENT ++ desc.1
            ++ List.replicate (w.description_indent
              - chars_count (INDENT ++ desc.1)) ' ')
          (desc.2.splitOn ' ')
      have hlineNl : '\n' ∉ INDENT ++ desc.1
          ++ List.replicate (w.description_indent
            - chars_count (INDENT ++ desc.1)) ' ' := by
        intro h
        rcases List.mem_append.mp h with h | h
        · rcases List.mem_append.mp h with h | h
          · exact newline_not_mem_INDENT h
          · exact h1 h
        · exact absurd (List.eq_of_mem_replicate h) (by decide)
      have hlineUsage : usageLine (INDENT ++ desc.1
          ++ List.replicate (w.description_indent
            - chars_count (INDENT ++ desc.1)) ' ') = false := by
        rw [List.append_assoc]
        exact (good_line_indent (x := desc.1 ++ _) (by
          intro h
          rcases List.mem_append.mp h with h | h
          · exact h1 h
          · exact absurd (List.eq_of_mem_replicate h) (by decide))).1
      have hlineNe : (INDENT ++ desc.1
          ++ List.replicate (w.description_indent
            - chars_count (INDENT ++ desc.1)) ' ') ≠ [] := by
        simp [show (INDENT : Str) = [' ', ' '] from rfl]
      have hcond : ¬((decide (0 < w.description_indent)
          && (INDENT ++ desc.1
            ++ List.replicate (w.description_indent
              - chars_count (INDENT ++ desc.1)) ' ').isEmpty) = true) := by
        simp [show (INDENT : Str) = [' ', ' '] from rfl]
      obtain ⟨ini, lst, heqL, hlstne⟩ :=
        write_wrapped_last_ne w.wrap_width w.description_indent buf
          (INDENT ++ desc.1
            ++ List.replicate (w.description_indent
              - chars_count (INDENT ++ desc.1)) ' ')
          (desc.2.splitOn ' ')
          (fun _ => hlineNe) (fun _ => Or.inl hind)
      refine ⟨first :: rest, heq, by simp, ?_, ?_⟩
      · intro l hl
        rcases List.mem_cons.mp hl with rfl | hl
        · rcases hfirst with ⟨-, rfl⟩ | ⟨w1, hw1, tail, hf, hsh, hcf⟩
          · exact ⟨hlineUsage, hlineNl⟩
          · rw [hf, if_neg hcond]
            constructor
            · rw [List.append_assoc, List.append_assoc]
              rw [show INDENT ++ (desc.1 ++ (List.replicate
                  (w.description_indent - chars_count (INDENT ++ desc.1)) ' '
                  ++ (w1 ++ tail)))
                = ' ' :: ' ' :: (desc.1 ++ (List.replicate
                  (w.description_indent - chars_count (INDENT ++ desc.1)) ' '
                  ++ (w1 ++ tail))) from rfl]
              exact usageLine_space_cons _
            · intro h
              rcases List.mem_append.mp h with h | h
              · exact hlineNl h
              · rcases List.mem_append.mp h with h | h
                · exact hwords w1 hw1 h
                · exact chars_from_no_newline hcf hwords h
        · obtain ⟨w1, hw1, tail, hf, hsh, hcf⟩ := hrest l hl
          rw [hf]
          constructor
          · exact usageLine_replicate_append hind _
          · intro h
            rcases List.mem_append.mp h with h | h
            · exact absurd (List.eq_of_mem_replicate h) (by decide)
            · rcases List.mem_append.mp h with h | h
              · exact hwords w1 hw1 h
              · exact chars_from_no_newline hcf hwords h
      · obtain ⟨init2, hinit2⟩ := append_last_ne (heq ▸ heqL) (by simp)
        exact ⟨init2, lst, hinit2, hlstne⟩
    · rw [if_neg hlt]
      obtain ⟨first, rest, heq, hfirst, hrest⟩ :=
        write_wrapped_shape w.wrap_width w.description_indent
          (buf ++ [INDENT ++ desc.1]) [] (desc.2.splitOn ' ')
      have hpadred : (if (decide (0 < w.description_indent)
            && (([] : Str).isEmpty)) = true
          then (pad_string [] w.description_indent).1 else ([] : Str))
          = List.replicate w.description_indent ' ' := by
        rw [if_pos (by simp [hind])]
        simp [pad_string, chars_count, hind]
      obtain ⟨ini, lst, heqL, hlstne⟩ :=
        write_wrapped_last_ne w.wrap_width w.description_indent
          (buf ++ [INDENT ++ desc.1]) [] (desc.2.splitOn ' ')
          (fun hx => absurd hx hwne) (fun _ => Or.inl hind)
      have heq2 : write_wrapped w.wrap_width w.description_indent
          (buf ++ [INDENT ++ desc.1]) [] (desc.2.splitOn ' ')
          = buf ++ (INDENT ++ desc.1) :: first :: rest := by
        rw [heq, List.append_assoc]
        rfl
      refine ⟨(INDENT ++ desc.1) :: first :: rest, heq2, by simp, ?_, ?_⟩
      · intro l hl
        rcases List.mem_cons.mp hl with rfl | hl
        · exact good_line_indent h1
        rcases List.mem_cons.mp hl with rfl | hl
        · rcases hfirst with ⟨hw0, rfl⟩ | ⟨w1, hw1, tail, hf, hsh, hcf⟩
          · exact good_line_nil
          · rw [hf, hpadred]
            constructor
            · exact usageLine_replicate_append hind _
            · intro h
              rcases List.mem_append.mp h with h | h
              · exact absurd (List.eq_of_mem_replicate h) (by decide)
              · rcases List.mem_append.mp h with h | h
                · exact hwords w1 hw1 h
                · exact chars_from_no_newline hcf hwords h
        · obtain ⟨w1, hw1, tail, hf, hsh, hcf⟩ := hrest l hl
          rw [hf]
          constructor
          · exact usageLine_replicate_append hind _
          · intro h
            rcases List.mem_append.mp h with h | h
            · exact absurd (List.eq_of_mem_replicate h) (by decide)
            · rcases List.mem_append.mp h with h | h
              · exact hwords w1 hw1 h
              · exact chars_from_no_newline hcf hwords h
      · obtain ⟨init2, hinit2⟩ := append_last_ne (heq2 ▸ heqL) (by simp)
        exact ⟨init2, lst, hinit2, hlstne⟩

/-- The entry fold of `write_section`: blank separator lines plus good
description blocks; nonempty input ends with a nonempty line. -/
theorem fold_description_good (w : HW) (hind : 0 < w.description_indent) :
    ∀ (ds : List (Str × Str)) (buf : List Str),
      (∀ d ∈ ds, '\n' ∉ d.1 ∧ '\n' ∉ d.2) →
      ∃ new, ds.foldl
          (fun b d' => write_description w
            (b ++ List.replicate w.blank_lines_spacing []) d') buf
        = buf ++ new ∧ (∀ l ∈ new, good_line l) ∧
        (ds = [] → new = []) ∧ (ds ≠ [] → ends_ne new) := by
  intro ds
  induction ds with
  | nil =>
      intro buf _
      exact ⟨[], by simp, by simp, fun _ => rfl, fun h => absurd rfl h⟩
  | cons d ds ih =>
      intro buf h
      rw [List.foldl_cons]
      obtain ⟨dn, hdeq, hdne, hdgood, hdlast⟩ :=
        write_description_good w (buf ++ List.replicate w.blank_lines_spacing [])
          d hind (h d (List.mem_cons_self _ _)).1 (h d (List.mem_cons_self _ _)).2
      obtain ⟨new, heq, hgood, hnil, hlast⟩ :=
        ih (buf ++ List.replicate w.blank_lines_spacing [] ++ dn)
          (fun x hx => h x (List.mem_cons.mpr (Or.inr hx)))
      refine ⟨List.replicate w.blank_lines_spacing [] ++ dn ++ new, ?_, ?_, ?_, ?_⟩
      · rw [hdeq, heq]
        simp [List.append_assoc]
      · intro l hl
        rcases List.mem_append.mp hl with hl | hl
        · rcases List.mem_append.mp hl with hl | hl
          · rw [List.eq_of_mem_replicate hl]
            exact good_line_nil
          · exact hdgood l hl
        · exact hgood l hl
      · intro hfalse
        cases hfalse
      · intro _
        by_cases hds : ds = []
        · rw [hnil hds]
          simp only [List.append_nil]
          exact ends_ne_append_right hdlast
        · exact ends_ne_append_right (hlast hds)

/-- `write_section` appends a blank line, a title, and the entry blocks; all
appended lines are good, the block is nonempty iff some entry survives the
left-column filter, and a nonempty block ends with a nonempty line. -/
theorem write_section_good (w : HW) (buf : List Str) (title : Str)
    (descs : List (Str × Str)) (hind : 0 < w.description_indent)
    (htitle : usageLine title = false) (htnl : '\n' ∉ title)
    (hd : ∀ d ∈ descs, '\n' ∉ d.1 ∧ '\n' ∉ d.2) :
    ∃ new, write_section w buf title descs = buf ++ new ∧
      (∀ l ∈ new, good_line l) ∧
      (new ≠ [] → ends_ne new) ∧
      (descs.filter (fun d => !d.1.isEmpty) ≠ [] → new ≠ []) := by
  rw [write_section]
  cases hft : descs.filter (fun d => !d.1.isEmpty) with
  | nil =>
      exact ⟨[], by simp, by simp, fun h => absurd rfl h, fun h => absurd rfl h⟩
  | cons d rest =>
      have hdm : ∀ x ∈ d :: rest, '\n' ∉ x.1 ∧ '\n' ∉ x.2 := by
        intro x hx
        exact hd x (List.mem_of_mem_filter (hft ▸ hx))
      obtain ⟨dn, hdeq, hdne, hdgood, hdlast⟩ :=
        write_description_good w (buf ++ [[], title]) d hind
          (hdm d (List.mem_cons_self _ _)).1 (hdm d (List.mem_cons_self _ _)).2
      obtain ⟨new, heq, hgood, hnil, hlast⟩ :=
        fold_description_good w hind rest (buf ++ [[], title] ++ dn)
          (fun x hx => hdm x (List.mem_cons.mpr (Or.inr hx)))
      refine ⟨[[], title] ++ dn ++ new, ?_, ?_, ?_, fun _ => by simp⟩
      · show List.foldl
            (fun b d' => write_description w
              (b ++ List.replicate w.blank_lines_spacing []) d')
            (write_description w (buf ++ [[], title]) d) rest
          = buf ++ ([[], title] ++ dn ++ new)
        rw [hdeq, heq]
        simp [List.append_assoc]
      · intro l hl
        rcases List.mem_append.mp hl with hl | hl
        · rcases List.mem_append.mp hl with hl | hl
          · rcases List.mem_cons.mp hl with rfl | hl
            · exact good_line_nil
            · rw [List.mem_singleton.mp hl]
              exact ⟨htitle, htnl⟩
          · exact hdgood l hl
        · exact hgood l hl
      · intro _
        by_cases hrest : rest = []
        · rw [hnil hrest]
          simp only [List.append_nil]
          exact ends_ne_append_right hdlast
        · exact ends_ne_append_right (hlast hrest)

theorem ends_ne_of_eq {a b : List Str} (h : a = b) (hb : ends_ne b) :
    ends_ne a := h ▸ hb

/-- **C8** (amended): for every schema and inputs with (i) a positive computed
description indent, (ii) no `Usage:`-prefixed word in the substituted
description or footer text, (iii) a footer (when present) whose last
newline-separated line ends in a nonempty word, and (iv) no embedded newline
in the command name, usage strings, left/right description columns,
subcommand names/descriptions, or the subcommand usage string, the generated
help string contains exactly one line beginning with `Usage:` and ends with
exactly one trailing newline; moreover every line produced by the wrapping
routine either fits the wrap width, is the unmodified incoming line (an
over-wide left column), or is the padding (or padded left column) followed by
one single unbreakable word. -/
theorem help_generate_properties (info : HelpInfo) (command_name : Str)
    (global_options : List OptionArgInfo) (style : HelpStyle)
    (termCols : Option Nat)
    (hind : 0 < help_indent info global_options style termCols)
    (hcmd : '\n' ∉ command_name)
    (hdesc : ∀ tl ∈ (replace_sub (str "{command_name}") command_name
        info.description).splitOn '\n', ∀ word ∈ tl.splitOn ' ',
        usageLine word = false)
    (hfoot : ∀ tl ∈ (replace_sub (str "{command_name}") command_name
        info.footer).splitOn '\n', ∀ word ∈ tl.splitOn ' ',
        usageLine word = false)
    (hfootlast : info.footer ≠ [] → ∀ lastl,
        ((replace_sub (str "{command_name}") command_name
          info.footer).splitOn '\n').getLast? = some lastl →
        (lastl.splitOn ' ').getLast? ≠ some [])
    (hopts : ∀ o ∈ help_options info global_options ++ info.positionals,
        '\n' ∉ o.usage ∧ '\n' ∉ o.description.1 ∧ '\n' ∉ o.description.2)
    (hsubs : ∀ c ∈ help_subcommands info,
        '\n' ∉ c.name ∧ '\n' ∉ c.description)
    (hcusage : ∀ cmds, info.commands = some cmds → '\n' ∉ cmds.usage) :
    ((generate_string info command_name global_options style
        termCols).splitOn '\n').countP (fun l => usageLine l) = 1 ∧
    (∃ s, generate_string info command_name global_options style termCols
        = s ++ ['\n'] ∧ s.getLast? ≠ some '\n') ∧
    (∀ wrap pad buf line words, ∀ l ∈ write_wrapped wrap pad buf line words,
      l ∈ buf ∨ l = line ∨ l.length ≤ wrap ∨
      ∃ w ∈ words,
        l = (if 0 < pad && line.isEmpty then (pad_string line pad).1 else line)
            ++ w ∨
        l = List.replicate pad ' ' ++ w) := by
  have hsu : ∀ u ∈ subcommands_usage_of info, '\n' ∉ u := by
    intro u hu hch
    cases hc : info.commands with
    | none => simp [subcommands_usage_of, hc] at hu
    | some cmds =>
        simp only [subcommands_usage_of, hc] at hu
        exact (hcusage cmds hc) (mem_splitOn_mem hu _ hch)
  have hposNl : ∀ r ∈ info.positionals,
      '\n' ∉ r.usage ∧ '\n' ∉ r.description.1 ∧ '\n' ∉ r.description.2 :=
    fun r hr => hopts r (List.mem_append.mpr (Or.inr hr))
  have hoptNl : ∀ r ∈ help_options info global_options,
      '\n' ∉ r.usage ∧ '\n' ∉ r.description.1 ∧ '\n' ∉ r.description.2 :=
    fun r hr => hopts r (List.mem_append.mpr (Or.inl hr))
  have main : ∃ first rst,
      generate info command_name global_options style termCols
        = first :: rst ∧
      usageLine first = true ∧ '\n' ∉ first ∧ (∀ l ∈ rst, good_line l) ∧
      ends_ne (first :: rst) := by
    simp only [generate]
    set w : HW := HW.mk style.blank_lines_spacing command_name
      (help_indent info global_options style termCols)
      (style.wrap_width termCols) with hw
    have hindw : 0 < w.description_indent := hind
    have hcmdw : '\n' ∉ w.command_name := hcmd
    obtain ⟨first, rest0, hU, hUu, hUnl, hUgood⟩ :
        ∃ first rest0,
          (if style.short_usage = true then
            write_usage w [] (str "Usage:")
              (str "[options]" :: (info.positionals.map (fun r => r.usage)
                ++ subcommands_usage_of info))
          else
            write_usage w [] (str "Usage:")
              ((help_options info global_options ++ info.positionals).map
                (fun r => r.usage) ++ subcommands_usage_of info))
          = first :: rest0 ∧ usageLine first = true ∧ '\n' ∉ first ∧
            ∀ l ∈ rest0, good_line l := by
      by_cases hs : style.short_usage = true
      · rw [if_pos hs]
        obtain ⟨first, rest0, heq, h1, h2, h3⟩ :=
          write_usage_good w []
            (str "[options]" :: (info.positionals.map (fun r => r.usage)
              ++ subcommands_usage_of info)) hcmdw (by
            intro u hu
            rcases List.mem_cons.mp hu with rfl | hu
            · decide
            · rcases List.mem_append.mp hu with hu | hu
              · obtain ⟨r, hr, rfl⟩ := List.mem_map.mp hu
                exact (hposNl r hr).1
              · exact hsu u hu)
        exact ⟨first, rest0, by simpa using heq, h1, h2, h3⟩
      · rw [if_neg hs]
        obtain ⟨first, rest0, heq, h1, h2, h3⟩ :=
          write_usage_good w []
            ((help_options info global_options ++ info.positionals).map
              (fun r => r.usage) ++ subcommands_usage_of info) hcmdw (by
            intro u hu
            rcases List.mem_append.mp hu with hu | hu
            · obtain ⟨r, hr, rfl⟩ := List.mem_map.mp hu
              exact (hopts r hr).1
            · exact hsu u hu)
        exact ⟨first, rest0, by simpa using heq, h1, h2, h3⟩
    rw [hU]
    obtain ⟨P, hP, hPgood⟩ :=
      write_paragraphs_good w (first :: rest0) info.description hdesc
    rw [hP]
    obtain ⟨A, hA, hAgood⟩ :
        ∃ A, (if (!info.positionals.isEmpty) = true then
            write_section w ((first :: rest0) ++ P) (str "Arguments:")
              (info.positionals.map (fun r => r.description))
          else ((first :: rest0) ++ P)) = ((first :: rest0) ++ P) ++ A ∧
          ∀ l ∈ A, good_line l := by
      by_cases hp : info.positionals.isEmpty = true
      · rw [if_neg (by simp [hp])]
        exact ⟨[], by simp, by simp⟩
      · rw [if_pos (by simp [hp])]
        obtain ⟨A, h1, h2, h3, h4⟩ := write_section_good w
          ((first :: rest0) ++ P) (str "Arguments:")
          (info.positionals.map (fun r => r.description)) hindw
          (by decide) (by decide) (by
            intro d hd
            obtain ⟨r, hr, rfl⟩ := List.mem_map.mp hd
            exact ⟨(hposNl r hr).2.1, (hposNl r hr).2.2⟩)
        exact ⟨A, h1, h2⟩
    rw [hA]
    obtain ⟨O, hO, hOgood, hOend, hOne⟩ := write_section_good w
      (((first :: rest0) ++ P) ++ A) (str "Options:")
      ((help_options info global_options).map (fun r => r.description)) hindw
      (by decide) (by decide) (by
        intro d hd
        obtain ⟨r, hr, rfl⟩ := List.mem_map.mp hd
        exact ⟨(hoptNl r hr).2.1, (hoptNl r hr).2.2⟩)
    have hOne2 : O ≠ [] := by
      apply hOne
      intro hc
      rw [List.filter_eq_nil_iff] at hc
      exact absurd (by decide)
        (hc HELP_OPT.description
          (List.mem_map.mpr ⟨HELP_OPT, by simp [help_options], rfl⟩))
    rw [hO]
    obtain ⟨C, hC, hCgood, hCend⟩ :
        ∃ C, (if (!(help_subcommands info).isEmpty) = true then
            write_section w ((((first :: rest0) ++ P) ++ A) ++ O)
              (str "Commands:")
              ((help_subcommands info).map (fun r => (r.name, r.description)))
          else ((((first :: rest0) ++ P) ++ A) ++ O))
          = ((((first :: rest0) ++ P) ++ A) ++ O) ++ C ∧
          (∀ l ∈ C, good_line l) ∧ (C ≠ [] → ends_ne C) := by
      by_cases hsc : (help_subcommands info).isEmpty = true
      · rw [if_neg (by simp [hsc])]
        exact ⟨[], by simp, by simp, fun h => absurd rfl h⟩
      · rw [if_pos (by simp [hsc])]
        obtain ⟨C, h1, h2, h3, h4⟩ := write_section_good w
          ((((first :: rest0) ++ P) ++ A) ++ O) (str "Commands:")
          ((help_subcommands info).map (fun r => (r.name, r.description)))
          hindw (by decide) (by decide) (by
            intro d hd
            obtain ⟨r, hr, rfl⟩ := List.mem_map.mp hd
            exact ⟨(hsubs r hr).1, (hsubs r hr).2⟩)
        exact ⟨C, h1, h2, h3⟩
    rw [hC]
    obtain ⟨F, hF, hFgood, hFend⟩ :
        ∃ F, (if (!info.footer.isEmpty) = true then
            write_paragraphs w (((((first :: rest0) ++ P) ++ A) ++ O) ++ C)
              info.footer
          else (((((first :: rest0) ++ P) ++ A) ++ O) ++ C))
          = (((((first :: rest0) ++ P) ++ A) ++ O) ++ C) ++ F ∧
          (∀ l ∈ F, good_line l) ∧
          (ends_ne ((((((first :: rest0) ++ P) ++ A) ++ O) ++ C) ++ F)
            ∨ F = []) := by
      by_cases hf : info.footer.isEmpty = true
      · rw [if_neg (by simp [hf])]
        exact ⟨[], by simp, by simp, Or.inr rfl⟩
      · rw [if_pos (by simp [hf])]
        have hfne : info.footer ≠ [] := by
          simpa [List.isEmpty_iff] using hf
        obtain ⟨F, h1, h2⟩ := write_paragraphs_good w
          (((((first :: rest0) ++ P) ++ A) ++ O) ++ C) info.footer hfoot
        obtain ⟨ini, lst, h3, h4⟩ := write_paragraphs_last_ne w
          (((((first :: rest0) ++ P) ++ A) ++ O) ++ C) info.footer
          (hfootlast hfne)
        refine ⟨F, h1, h2, Or.inl ?_⟩
        rw [← h1]
        exact ⟨ini, lst, h3, h4⟩
    rw [hF]
    refine ⟨first, rest0 ++ P ++ A ++ O ++ C ++ F,
      by simp [List.append_assoc], hUu, hUnl, ?_, ?_⟩
    · intro l hl
      simp only [List.mem_append] at hl
      rcases hl with ((((hl | hl) | hl) | hl) | hl) | hl
      · exact hUgood l hl
      · exact hPgood l hl
      · exact hAgood l hl
      · exact hOgood l hl
      · exact hCgood l hl
      · exact hFgood l hl
    · rcases hFend with hend | rfl
      · exact ends_ne_of_eq (by simp [List.append_assoc]) hend
      · have h1 : ends_ne ((((first :: rest0) ++ P) ++ A) ++ O) :=
          ends_ne_append_right (hOend hOne2)
        have h2 : ends_ne (((((first :: rest0) ++ P) ++ A) ++ O) ++ C) :=
          ends_ne_append (fun _ => h1) hCend
        exact ends_ne_of_eq (by simp [List.append_assoc]) h2
  obtain ⟨first, rst, hgen, hUu, hUnl, hgood, hends⟩ := main
  have hNl : ∀ l ∈ generate info command_name global_options style termCols,
      '\n' ∉ l := by
    rw [hgen]
    intro l hl
    rcases List.mem_cons.mp hl with rfl | hl
    · exact hUnl
    · exact (hgood l hl).2
  refine ⟨?_, ?_, ?_⟩
  · rw [generate_string, render_splitOn hNl, hgen, List.countP_append,
      List.countP_cons]
    have hz : rst.countP (fun l => usageLine l) = 0 :=
      List.countP_eq_zero.mpr (fun l hl => by simp [(hgood l hl).1])
    simp [hz, hUu, usageLine_nil]
  · obtain ⟨ini, lst, heq, hlst⟩ := hends
    obtain ⟨l0, c, rfl⟩ := (List.eq_nil_or_concat lst).resolve_left hlst
    have hlmem : (l0.concat c : Str) ∈ first :: rst := by
      rw [heq]
      exact List.mem_append_right _ (List.mem_singleton_self _)
    have hlnl : '\n' ∉ (l0.concat c : Str) := by
      rcases List.mem_cons.mp hlmem with h | h
      · rw [h]; exact hUnl
      · exact (hgood _ h).2
    refine ⟨render ini ++ (l0 ++ [c]) , ?_, ?_⟩
    · rw [generate_string, hgen, heq, render_append]
      simp [render, List.concat_eq_append, List.append_assoc]
    · rw [List.getLast?_append]
      rw [show (l0 ++ [c] : Str).getLast? = some c from List.getLast?_concat _]
      simp only [Option.or]
      intro hcc
      rw [Option.some.injEq] at hcc
      apply hlnl
      rw [List.concat_eq_append, ← hcc]
      exact List.mem_append_right _ (List.mem_singleton_self _)
  · intro wrap pad buf line words l hl
    exact write_wrapped_wrap wrap pad buf line words l hl

/-- A small clean schema used to instantiate the amended help properties. -/
def testHelpInfo : HelpInfo :=
  { description := str "Test program."
    positionals := []
    options := []
    commands := none
    footer := [] }

/-- Witness: the amended help properties hold at a concrete clean schema. -/
theorem help_generate_properties_witness :
    0 < help_indent testHelpInfo [] HelpStyle.default none ∧
    (((generate_string testHelpInfo (str "prog") [] HelpStyle.default
        none).splitOn '\n').countP (fun l => usageLine l) = 1 ∧
    (∃ s, generate_string testHelpInfo (str "prog") [] HelpStyle.default none
        = s ++ ['\n'] ∧ s.getLast? ≠ some '\n') ∧
    (∀ wrap pad buf line words, ∀ l ∈ write_wrapped wrap pad buf line words,
      l ∈ buf ∨ l = line ∨ l.length ≤ wrap ∨
      ∃ w ∈ words,
        l = (if 0 < pad && line.isEmpty then (pad_string line pad).1 else line)
            ++ w ∨
        l = List.replicate pad ' ' ++ w)) :=
  ⟨by decide,
    help_generate_properties testHelpInfo (str "prog") [] HelpStyle.default
      none
      (by decide)
      (by decide)
      (by simp +decide [replace_sub, str, testHelpInfo, List.splitOn,
        List.splitOnP, List.splitOnP.go, usageLine, List.isPrefixOf])
      (by simp +decide [replace_sub, str, testHelpInfo, List.splitOn,
        List.splitOnP, List.splitOnP.go, usageLine, List.isPrefixOf])
      (fun h => absurd rfl h)
      (by decide)
      (by decide)
      (fun cmds h => Option.noConfusion h)⟩

end Argp
